import Mathlib

/-!
# Verification of the `shorai` spatio-temporal pathfinder

Shallow embedding of the repository's collision kernel (`src/math.rs`),
hazard set (`shorai/src/missile.rs`, `shorai/src/pos.rs`,
`src/geometry.rs`) and planner (`shorai/src/pathfind.rs`), together with
theorems settling the frozen claims about them.

Numeric modelling: the source computes with IEEE-754 `f32`.  The embedding
uses exact rationals (`ℚ`) for every arithmetic operation the source
performs, keeping the source's expression and branch structure intact.
All concrete inputs used in counterexamples and witnesses are small
integers or exact dyadic values on which `f32` arithmetic is itself exact,
so the evaluations shown here coincide with what the compiled Rust
computes at those inputs.  `f32::sqrt` is modelled by `sqrtQ`, which is
exact on perfect squares; every concrete evaluation below only takes
square roots of perfect squares.
-/

namespace Shorai

/-- 2-D vector, modelling `ultraviolet::Vec2` with exact rational
coordinates. -/
structure Vec2 where
  x : ℚ
  y : ℚ
deriving DecidableEq, Repr

namespace Vec2

def add (a b : Vec2) : Vec2 := ⟨a.x + b.x, a.y + b.y⟩

def sub (a b : Vec2) : Vec2 := ⟨a.x - b.x, a.y - b.y⟩

def smul (a : Vec2) (c : ℚ) : Vec2 := ⟨a.x * c, a.y * c⟩

def sdiv (a : Vec2) (c : ℚ) : Vec2 := ⟨a.x / c, a.y / c⟩

/-- `Vec2::dot`. -/
def dot (a b : Vec2) : ℚ := a.x * b.x + a.y * b.y

/-- `Vec2::mag_sq`. -/
def mag_sq (a : Vec2) : ℚ := a.dot a

end Vec2

/-- Rational square root: exact on perfect squares, `0` elsewhere.  Models
`f32::sqrt`; every use in this development is at a perfect square, where
the `f32` result is also exact. -/
def sqrtQ (q : ℚ) : ℚ :=
  if 0 ≤ q ∧ ((q.num.toNat.sqrt : ℤ) * q.num.toNat.sqrt = q.num ∧ q.den.sqrt * q.den.sqrt = q.den)
  then (q.num.toNat.sqrt : ℚ) / (q.den.sqrt : ℚ)
  else 0

/-- `Vec2::mag`, i.e. `sqrt(mag_sq)`. -/
def Vec2.mag (a : Vec2) : ℚ := sqrtQ a.mag_sq

/-- `Vec2::normalized`: `v / |v|`. -/
def Vec2.normalized (a : Vec2) : Vec2 := a.sdiv a.mag

/-- The collision kernel `collides_within_time` from `src/math.rs`,
translated line by line.  The source divides without guarding `c0 = 0`
(parallel motion); rational division by zero yields `0` where `f32`
would yield an infinity or NaN, and in both semantics every quadratic
branch then rejects (here `p = q = d = 0`, so the `d = 0 ∧ 0 < p` and
`0 < d` guards both fail; in `f32` the comparisons on non-finite values
fail likewise). -/
def collides_within_time (p_lhs p_rhs v_lhs v_rhs : Vec2) (radius_sq time : ℚ) : Bool :=
  -- Check if the initial states are already touching
  if (p_lhs.sub p_rhs).mag_sq < radius_sq then
    true
  else
    -- Calculate quadratic coefficients
    let c0 := v_lhs.dot v_lhs + v_rhs.dot v_rhs - v_lhs.dot v_rhs - v_lhs.dot v_rhs
    let c1 := v_lhs.dot p_lhs + v_rhs.dot p_rhs - v_rhs.dot p_lhs - v_lhs.dot p_rhs
    let c2 := p_lhs.dot p_lhs + p_rhs.dot p_rhs - p_lhs.dot p_rhs - p_lhs.dot p_rhs
    let c2 := c2 - radius_sq
    -- Solve the resulting quadratic formula
    let p := (c1 + c1) / (c0 + c0)
    let q := c2 / c0
    let d := p * p - q
    if d = 0 ∧ 0 < p then
      decide (p < time)
    else if 0 < d then
      let p_sq_signed := p * |p|
      let time_sq := time * time
      let value := time_sq + p_sq_signed
      decide ((p_sq_signed < d ∧ d < value) ∨ (d < -p_sq_signed ∧ -d < value))
    else
      false

end Shorai

namespace Shorai

/-- The repository's own `missile_collides_basic` scenario, reproduced on
the embedding: the head-on configuration collides within the window
`[0, 10]` but not within `[0, 8]` (the first contact is at `τ = 9.95`). -/
theorem collides_within_time_repo_test :
    collides_within_time ⟨100, 0⟩ ⟨-100, 0⟩ ⟨-10, 0⟩ ⟨10, 0⟩ 1 10 = true ∧
      collides_within_time ⟨100, 0⟩ ⟨-100, 0⟩ ⟨-10, 0⟩ ⟨10, 0⟩ 1 8 = false := by
  constructor <;> norm_num [collides_within_time, Vec2.sub, Vec2.dot, Vec2.mag_sq]

/-- C7 helper: the dot product is commutative. -/
theorem Vec2.dot_comm (a b : Vec2) : a.dot b = b.dot a := by
  unfold Vec2.dot; ring

/-- **C7.** Swapping the two moving bodies — exchanging `(pₐ, vₐ)` with
`(pᵦ, vᵦ)` while keeping the combined radius-squared and window length
fixed — leaves the result of `collides_within_time` unchanged: the
predicate is symmetric in its two bodies. -/
theorem collides_within_time_swap_symm (pa pb va vb : Vec2) (r2 t : ℚ) :
    collides_within_time pb pa vb va r2 t = collides_within_time pa pb va vb r2 t := by
  have hsep : (pb.sub pa).mag_sq = (pa.sub pb).mag_sq := by
    unfold Vec2.sub Vec2.mag_sq Vec2.dot; ring
  have hc0 : vb.dot vb + va.dot va - vb.dot va - vb.dot va
      = va.dot va + vb.dot vb - va.dot vb - va.dot vb := by
    rw [Vec2.dot_comm vb va]; ring
  have hc1 : vb.dot pb + va.dot pa - va.dot pb - vb.dot pa
      = va.dot pa + vb.dot pb - vb.dot pa - va.dot pb := by
    ring
  have hc2 : pb.dot pb + pa.dot pa - pb.dot pa - pb.dot pa
      = pa.dot pa + pb.dot pb - pa.dot pb - pa.dot pb := by
    rw [Vec2.dot_comm pb pa]; ring
  simp only [collides_within_time, hsep, hc0, hc1, hc2]

end Shorai

namespace Shorai

/-- **C6.** Sub-window monotonicity of the collision kernel: for all
positions, velocities and radius-squared, and window lengths
`0 ≤ t ≤ t'`, if `collides_within_time` returns `true` for window `t`
then it also returns `true` for window `t'`. -/
theorem collides_within_time_mono (pa pb va vb : Vec2) (r2 t t' : ℚ)
    (h0 : 0 ≤ t) (htt' : t ≤ t')
    (h : collides_within_time pa pb va vb r2 t = true) :
    collides_within_time pa pb va vb r2 t' = true := by
  have hsq : t * t ≤ t' * t' := mul_self_le_mul_self h0 htt'
  simp only [collides_within_time] at h ⊢
  split_ifs at h ⊢ with h1 h2 h3
  all_goals simp only [decide_eq_true_eq] at h ⊢
  · linarith
  · rcases h with ⟨ha, hb⟩ | ⟨ha, hb⟩
    · exact Or.inl ⟨ha, by linarith⟩
    · exact Or.inr ⟨ha, by linarith⟩

/-- Witness for C6: the repository's head-on scenario collides within the
window `[0, 10]`, hence (by `collides_within_time_mono`) also within
`[0, 12]`. -/
theorem collides_within_time_mono_witness :
    collides_within_time ⟨100, 0⟩ ⟨-100, 0⟩ ⟨-10, 0⟩ ⟨10, 0⟩ 1 12 = true :=
  collides_within_time_mono ⟨100, 0⟩ ⟨-100, 0⟩ ⟨-10, 0⟩ ⟨10, 0⟩ 1 10 12
    (by norm_num) (by norm_num)
    (by norm_num [collides_within_time, Vec2.sub, Vec2.dot, Vec2.mag_sq])

/-- **C4 (amended).** For window length exactly `0`, the collision kernel
returns precisely the initial-touch test `|pₐ − pᵦ|² < r²`.  (The
unamended claim extended this to negative window lengths; see
`collides_within_time_neg_window_cex`.) -/
theorem collides_within_time_zero_window (pa pb va vb : Vec2) (r2 : ℚ) :
    collides_within_time pa pb va vb r2 0 = decide ((pa.sub pb).mag_sq < r2) := by
  simp only [collides_within_time]
  split_ifs with h1 h2 h3
  · exact (decide_eq_true h1).symm
  · rw [decide_eq_false h1, decide_eq_false (lt_asymm h2.2)]
  · rw [decide_eq_false h1, decide_eq_false]
    rintro (⟨ha, hb⟩ | ⟨ha, hb⟩) <;> nlinarith
  · rw [decide_eq_false h1]

/-- **C4 (counterexample).** For a strictly negative window length the
kernel does not reduce to the initial-touch test: with the bodies 10
apart, combined radius-squared 25 and window length `-10`, the kernel
returns `true` although the initial separation test fails.  (All inputs
are small integers, on which `f32` computes exactly.) -/
theorem collides_within_time_neg_window_cex :
    collides_within_time ⟨0, 0⟩ ⟨10, 0⟩ ⟨1, 0⟩ ⟨0, 0⟩ 25 (-10) = true ∧
      ¬ ((Vec2.sub ⟨0, 0⟩ ⟨10, 0⟩).mag_sq < 25) := by
  constructor
  · norm_num [collides_within_time, Vec2.sub, Vec2.dot, Vec2.mag_sq]
  · norm_num [Vec2.sub, Vec2.dot, Vec2.mag_sq]

/-- Witness for C4 (amended): at window length `0` and the same bodies as
the counterexample, the kernel agrees with the (failing) initial-touch
test. -/
theorem collides_within_time_zero_window_witness :
    collides_within_time ⟨0, 0⟩ ⟨10, 0⟩ ⟨1, 0⟩ ⟨0, 0⟩ 25 0
      = decide ((Vec2.sub ⟨0, 0⟩ ⟨10, 0⟩).mag_sq < 25) :=
  collides_within_time_zero_window ⟨0, 0⟩ ⟨10, 0⟩ ⟨1, 0⟩ ⟨0, 0⟩ 25

/-- **C3 (code bug).** The kernel is *not* the predicate "initial touch,
or the quadratic `a τ² + 2 b τ + c = 0` has a real root in `(0, Δt]`"
that its specification (and the sibling root-finder
`solve_collision_time`) describe.  Failing input: `pₐ = (0,0)`,
`pᵦ = (10,0)`, `vₐ = (1,0)`, `vᵦ = (0,0)`, `r² = 25`, `Δt = 8` — all
exactly representable in `f32`, with every intermediate of the source
computation exact.  The initial separation is `100 ≥ 25` (no initial
touch), the quadratic has the root `τ = 5 ∈ (0, 8]` (the discs are
strictly overlapping at `τ = 6`: separation `16 < 25`), yet
`collides_within_time` returns `false`. -/
theorem collides_within_time_misses_root_bug :
    collides_within_time ⟨0, 0⟩ ⟨10, 0⟩ ⟨1, 0⟩ ⟨0, 0⟩ 25 8 = false ∧
      ¬ ((Vec2.sub ⟨0, 0⟩ ⟨10, 0⟩).mag_sq < 25) ∧
      (Vec2.sub ⟨1, 0⟩ ⟨0, 0⟩).mag_sq * 5 ^ 2
          + 2 * ((Vec2.sub ⟨0, 0⟩ ⟨10, 0⟩).dot (Vec2.sub ⟨1, 0⟩ ⟨0, 0⟩)) * 5
          + ((Vec2.sub ⟨0, 0⟩ ⟨10, 0⟩).mag_sq - 25) = 0 ∧
      (0 : ℚ) < 5 ∧ (5 : ℚ) ≤ 8 ∧
      ((Vec2.sub (Vec2.add ⟨0, 0⟩ ((Vec2.mk 1 0).smul 6))
          (Vec2.add ⟨10, 0⟩ ((Vec2.mk 0 0).smul 6))).mag_sq < 25) := by
  refine ⟨?_, ?_, ?_, by norm_num, by norm_num, ?_⟩
  · norm_num [collides_within_time, Vec2.sub, Vec2.dot, Vec2.mag_sq]
  · norm_num [Vec2.sub, Vec2.dot, Vec2.mag_sq]
  · norm_num [Vec2.sub, Vec2.dot, Vec2.mag_sq]
  · norm_num [Vec2.sub, Vec2.add, Vec2.smul, Vec2.dot, Vec2.mag_sq]

end Shorai

namespace Shorai

/-- Space-time position from `shorai/src/pos.rs` (`OrderedFloat<f32>`
coordinates, modelled as exact rationals). -/
structure Pos where
  x : ℚ
  y : ℚ
  t : ℚ
deriving DecidableEq, Repr

namespace Pos

/-- `Pos::time`. -/
def time (p : Pos) : ℚ := p.t

/-- `Pos::vec`. -/
def vec (p : Pos) : Vec2 := ⟨p.x, p.y⟩

/-- `Pos::direction`: normalized direction between two positions, and
`(0, 0)` when they share the same planar point. -/
def direction (p towards : Pos) : Vec2 :=
  let v := (towards.vec).sub p.vec
  if v.x = 0 ∧ v.y = 0 then v else v.normalized

end Pos

/-- Line segment from `src/geometry.rs` (`Line(pub Vec2, pub Vec2)`). -/
structure Line where
  fst : Vec2
  snd : Vec2
deriving DecidableEq

/-- `Line::dist_to_point_sq`.  The source divides by `l2` without a zero
guard; with `f32` a zero-length segment makes `t` NaN and the
`max(0).min(1)` clamp then yields `0`, exactly as rational
division-by-zero does here (the repository's own
`dist_to_point_sq_with_zero_mag_line_is_valid` test pins this down). -/
def Line.dist_to_point_sq (l : Line) (point : Vec2) : ℚ :=
  let v := l.fst
  let w := l.snd
  let p := point
  let d := w.sub v
  let l2 := d.mag_sq
  let t := ((p.sub v).dot d) / l2
  let t := min (max t 0) 1
  let proj := v.add (d.smul t)
  (proj.sub p).mag_sq

/-- Missile record from `shorai/src/missile.rs`. -/
structure Missile where
  time_beg : ℚ
  time_end : ℚ
  radius : ℚ
  origin : Vec2
  target : Vec2
  time_offset : Vec2
deriving DecidableEq, Repr

namespace Missile

/-- `Missile::new`. -/
def new (spawn_time : ℚ) (origin target : Vec2) (radius speed : ℚ) : Missile :=
  let offset := target.sub origin
  let distance := offset.mag
  let time_moving := distance / speed
  let time_offset := offset.sdiv time_moving
  { origin, target, radius, time_offset,
    time_beg := spawn_time, time_end := spawn_time + time_moving }

/-- `Missile::get_pos_range`; the `Range<f32>` argument is modelled as a
`(start, end)` pair. -/
def get_pos_range (m : Missile) (time : ℚ × ℚ) : Option (Pos × Pos) :=
  let is_alive := m.time_beg ≤ time.2 ∧ time.1 ≤ m.time_end
  if is_alive then
    let time_beg := max m.time_beg time.1
    let time_end := min m.time_end time.2
    let off_to_beg := time_beg - m.time_beg
    let off_to_end := time_end - time_beg
    let beg_pos := m.origin.add (m.time_offset.smul off_to_beg)
    let end_pos := beg_pos.add (m.time_offset.smul off_to_end)
    some (⟨beg_pos.x, beg_pos.y, time_beg⟩, ⟨end_pos.x, end_pos.y, time_end⟩)
  else
    none

/-- `Missile::overlaps`. -/
def overlaps (m : Missile) (smear_from : ℚ) (pos : Pos) (pawn_size : ℚ) : Bool :=
  match m.get_pos_range (smear_from, pos.time) with
  | none => false
  | some (beg, fin) =>
      decide (Line.dist_to_point_sq ⟨beg.vec, fin.vec⟩ pos.vec < (m.radius + pawn_size) ^ 2)

/-- `Missile::collides`. -/
def collides (m : Missile) (pos : Pos) (pos_velocity : Vec2) (time : ℚ × ℚ)
    (pawn_size : ℚ) : Bool :=
  -- Slice off the ends to only keep the overlapping part
  let t_beg := max (max m.time_beg time.1) pos.time
  let t_end := min m.time_end time.2
  -- If the missile's lifetime doesn't overlap with our path's lifetime, we're not colliding
  if t_end < t_beg then
    false
  else
    let off_to_beg_mis := t_beg - m.time_beg
    let off_to_beg_pos := t_beg - pos.time
    let target_pos_beg := (pos.vec).add (pos_velocity.smul off_to_beg_pos)
    let target_mis_beg := m.origin.add (m.time_offset.smul off_to_beg_mis)
    let t_dlt := t_end - t_beg
    let radius_sq := (m.radius + pawn_size) ^ 2
    collides_within_time target_pos_beg target_mis_beg pos_velocity m.time_offset radius_sq t_dlt

end Missile

/-- `MissileSet`: an insertion-ordered map from stable `u32` ids to
missiles, modelled as an association list in insertion order. -/
abbrev MissileSet := List (ℕ × Missile)

namespace MissileSet

/-- `MissileSet::overlaps`: first missile (in insertion order) whose
swept segment overlaps the smeared query point. -/
def overlaps (ms : MissileSet) (smear_from : ℚ) (pos : Pos) (pawn_size : ℚ) : Option ℕ :=
  (List.find? (fun im => (im.2).overlaps smear_from pos pawn_size) ms).map (·.1)

/-- `MissileSet::collides_velocity`. -/
def collides_velocity (ms : MissileSet) (pos : Pos) (velocity : Vec2)
    (end_time pawn_size : ℚ) : Option ℕ :=
  (List.find? (fun im => (im.2).collides pos velocity (pos.time, end_time) pawn_size) ms).map (·.1)

/-- `MissileSet::collides_points`. -/
def collides_points (ms : MissileSet) (pos_beg pos_end : Pos)
    (move_speed pawn_size : ℚ) : Option ℕ :=
  let velocity := (pos_beg.direction pos_end).smul move_speed
  let dist := ((pos_end.vec).sub (pos_beg.vec)).mag
  let move_time := dist / move_speed
  let move_beg_time := pos_beg.time
  let move_end_time := move_beg_time + move_time
  (collides_velocity ms pos_beg velocity move_end_time pawn_size).orElse
    (fun _ => overlaps ms move_end_time pos_end pawn_size)

end MissileSet

end Shorai

namespace Shorai

/-- `sqrtQ` is exact on squares of naturals. -/
theorem sqrtQ_natCast_sq (m n : ℕ) (h : n * n = m) : sqrtQ (m : ℚ) = n := by
  have hs : Nat.sqrt m = n := by rw [← h, Nat.sqrt_eq]
  unfold sqrtQ
  rw [Rat.num_natCast, Rat.den_natCast, Int.toNat_natCast, hs, Nat.sqrt_one]
  rw [if_pos]
  · norm_num
  · exact ⟨by positivity, by exact_mod_cast h, by norm_num⟩

theorem sqrtQ_40000 : sqrtQ 40000 = 200 := by
  have h : (40000 : ℚ) = ((40000 : ℕ) : ℚ) := by norm_num
  rw [h, sqrtQ_natCast_sq 40000 200 (by norm_num)]; norm_num

theorem sqrtQ_0 : sqrtQ 0 = 0 := by
  have h : (0 : ℚ) = ((0 : ℕ) : ℚ) := by norm_num
  rw [h, sqrtQ_natCast_sq 0 0 (by norm_num)]

/-- The concrete missile of the C5 counterexample evaluates to an explicit
record: it travels from `(-100, 0)` to `(100, 0)` at speed 10, spawning
at `t = 0`, so it lives on `[0, 20]` with per-second offset `(10, 0)`. -/
theorem c5_missile_eval :
    Missile.new 0 ⟨-100, 0⟩ ⟨100, 0⟩ 1 10
      = ⟨0, 20, 1, ⟨-100, 0⟩, ⟨100, 0⟩, ⟨10, 0⟩⟩ := by
  norm_num [Missile.new, Vec2.sub, Vec2.mag, Vec2.mag_sq, Vec2.dot, Vec2.sdiv, sqrtQ_40000]

end Shorai

namespace Shorai

/-- **C5 (amended).** The trajectory-collision query `collides_points`
returns the id of some missile if and only if either some missile
collides according to the kernel — run with velocity
`normalize(p_end − p_beg) · s` over the sub-window
`[max(p_beg.t, missile.time_beg), min(p_beg.t + |p_end − p_beg| / s,
missile.time_end)]` with both parties advanced to the window start, which
is exactly `Missile.collides` — **or** some missile's swept segment over
`[p_beg.t + |p_end − p_beg| / s, p_end.t]` passes within its radius plus
the pawn radius of the endpoint (the endpoint-smear check
`Missile.overlaps`, which the unamended claim omitted); it returns the
no-collision marker `none` otherwise. -/
theorem collides_points_iff (ms : MissileSet) (pb pe : Pos) (s ρ : ℚ) :
    (MissileSet.collides_points ms pb pe s ρ).isSome = true ↔
      ((∃ im ∈ ms, (im.2).collides pb ((pb.direction pe).smul s)
          (pb.time, pb.time + ((pe.vec).sub (pb.vec)).mag / s) ρ = true) ∨
       (∃ im ∈ ms, (im.2).overlaps (pb.time + ((pe.vec).sub (pb.vec)).mag / s) pe ρ = true)) := by
  unfold MissileSet.collides_points MissileSet.collides_velocity MissileSet.overlaps
  cases hf : List.find? (fun im =>
      (im.2).collides pb ((pb.direction pe).smul s)
        (pb.time, pb.time + ((pe.vec).sub (pb.vec)).mag / s) ρ) ms with
  | none =>
      have hnone : ¬ ∃ im ∈ ms, (im.2).collides pb ((pb.direction pe).smul s)
          (pb.time, pb.time + ((pe.vec).sub (pb.vec)).mag / s) ρ = true := by
        rw [← List.find?_isSome, hf]; simp
      cases hg : List.find? (fun im =>
          (im.2).overlaps (pb.time + ((pe.vec).sub (pb.vec)).mag / s) pe ρ) ms with
      | none =>
          have hnone2 : ¬ ∃ im ∈ ms,
              (im.2).overlaps (pb.time + ((pe.vec).sub (pb.vec)).mag / s) pe ρ = true := by
            rw [← List.find?_isSome, hg]; simp
          simp [hf, hg, Option.orElse, hnone, hnone2]
      | some jm =>
          have hsome2 : ∃ im ∈ ms,
              (im.2).overlaps (pb.time + ((pe.vec).sub (pb.vec)).mag / s) pe ρ = true := by
            rw [← List.find?_isSome, hg]; simp
          simp [hf, hg, Option.orElse, hsome2]
  | some im =>
      have hsome : ∃ im ∈ ms, (im.2).collides pb ((pb.direction pe).smul s)
          (pb.time, pb.time + ((pe.vec).sub (pb.vec)).mag / s) ρ = true := by
        rw [← List.find?_isSome, hf]; simp
      simp [hf, Option.orElse, hsome]

end Shorai

namespace Shorai

/-- **C5 (counterexample).** `collides_points` is not characterised by
the kernel query alone.  One missile flying `(-100,0) → (100,0)` at speed
10 (alive on `[0, 20]`), pawn of radius 0 "moving" from `(0,0)` at
`t = 5` to `(0,0)` at `t = 15` (a pure wait, travel time
`|Δ| / s = 0`): the kernel query over the claim's sub-window (which ends
at `t = 5`) reports no collision for the only missile, yet
`collides_points` returns `some 0`, via the endpoint smear over
`[5, 15]` during which the missile sweeps through the pawn's position.
(All intermediates are exact in `f32`, and the deciding comparisons have
integer-sized margins.) -/
theorem collides_points_endpoint_smear_cex :
    MissileSet.collides_points [(0, Missile.new 0 ⟨-100, 0⟩ ⟨100, 0⟩ 1 10)]
        ⟨0, 0, 5⟩ ⟨0, 0, 15⟩ 10 0 = some 0 ∧
      MissileSet.collides_velocity [(0, Missile.new 0 ⟨-100, 0⟩ ⟨100, 0⟩ 1 10)] ⟨0, 0, 5⟩
        ((Pos.direction ⟨0, 0, 5⟩ ⟨0, 0, 15⟩).smul 10)
        (Pos.time ⟨0, 0, 5⟩ + (((Pos.vec ⟨0, 0, 15⟩).sub (Pos.vec ⟨0, 0, 5⟩)).mag) / 10) 0
        = none := by
  rw [c5_missile_eval]
  constructor
  · norm_num [MissileSet.collides_points, MissileSet.collides_velocity, MissileSet.overlaps,
      Missile.collides, collides_within_time, Missile.overlaps, Missile.get_pos_range,
      Line.dist_to_point_sq, Pos.direction, Pos.vec, Pos.time, Vec2.add, Vec2.sub, Vec2.smul,
      Vec2.sdiv, Vec2.dot, Vec2.mag_sq, Vec2.mag, Vec2.normalized, sqrtQ_0, List.find?,
      Option.orElse]
  · norm_num [MissileSet.collides_velocity, Missile.collides, collides_within_time,
      Pos.direction, Pos.vec, Pos.time, Vec2.add, Vec2.sub, Vec2.smul, Vec2.sdiv, Vec2.dot,
      Vec2.mag_sq, Vec2.mag, Vec2.normalized, sqrtQ_0, List.find?]

end Shorai

namespace Shorai
namespace Pathfind

/-- `usize::MAX`, the root's sentinel parent index. -/
def USIZE_MAX : Nat := 2 ^ 64 - 1

/-- Fallback record carried by an optimistic shortcut edge
(`struct Fallback<K, N>` in `shorai/src/pathfind.rs`). -/
structure Fallback (C N : Type) where
  parent : Nat
  cost : C
  node : N
deriving DecidableEq, Repr

/-- Pending frontier edge (`struct Pending<K, N>`). -/
structure Pending (C N : Type) where
  estimated_cost : C
  cost : C
  index : Nat
  fallback : Option (Fallback C N)
deriving DecidableEq, Repr

/-- The `Ord for Pending` instance: comparison on `estimated_cost` is
reversed (`other.estimated_cost.cmp(&self.estimated_cost)`), so in the
max-heap the smallest estimate is the greatest element; ties fall back to
the plain comparison on `cost`, so among equal estimates the larger
`cost` is the greater element. -/
def pendingCmp [LinearOrder C] (a b : Pending C N) : Ordering :=
  match compare b.estimated_cost a.estimated_cost with
  | Ordering.eq => compare a.cost b.cost
  | s => s

/-- `BinaryHeap::pop`: remove and return a maximal element with respect
to the `Pending` ordering.  `BinaryHeap` leaves the order among elements
comparing equal unspecified; the model deterministically prefers the
earliest-pushed one. -/
def popMax [LinearOrder C] : List (Pending C N) → Option (Pending C N × List (Pending C N))
  | [] => none
  | x :: xs =>
    match popMax xs with
    | none => some (x, [])
    | some (m, rest) =>
      if pendingCmp m x = Ordering.gt then some (m, x :: rest) else some (x, xs)

/-- The visited table `FxIndexMap<N, (usize, C)>` in insertion order:
an entry is `(node, (parent_index, best_known_cost))` and its position in
the list is the node's stable index.  Entries are never removed. -/
abbrev Visited (N C : Type) := List (N × Nat × C)

/-- `IndexMap::entry`-style lookup: index and entry of the (unique) entry
with the given key. -/
def find_entry [DecidableEq N] : Visited N C → N → Option (Nat × (N × Nat × C))
  | [], _ => none
  | e :: rest, node =>
    if e.1 = node then some (0, e)
    else (find_entry rest node).map (fun p => (p.1 + 1, p.2))

/-- The planner's callback surface (the `FnMut` closures of `find`;
modelled as pure functions — the search itself threads no closure
state). -/
structure Callbacks (N C : Type) where
  successors : N → List (N × C)
  is_valid_move : N → N → Bool
  movement_cost : N → N → C
  heuristic : N → C
  success : N → Bool
  jump_check : N → N → N → Option N

/-- The mutable state of one `find_inner` run: the pending max-heap
(modelled as the list of its elements) and the visited table. -/
structure SearchState (N C : Type) where
  pending : List (Pending C N)
  visited : Visited N C
deriving DecidableEq, Repr

/-- `add_pending` from `shorai/src/pathfind.rs`: vacant keys are inserted
at the end of the table (index = previous length) and pushed; occupied
keys are overwritten (same index) and pushed only when the new cost is
strictly smaller; otherwise the candidate is dropped.  The heuristic is
evaluated on the entry's key before the insertion, which equals `node`. -/
def add_pending [DecidableEq N] [LinearOrder C] [Add C] (cb : Callbacks N C)
    (visited : Visited N C) (pending : List (Pending C N))
    (n_parent_idx : Nat) (cost : C) (node : N) (fallback : Option (Fallback C N)) :
    Visited N C × List (Pending C N) :=
  match find_entry visited node with
  | none =>
      let heuristic_value := cb.heuristic node
      let index := visited.length
      (visited ++ [(node, n_parent_idx, cost)],
        pending ++ [⟨cost + heuristic_value, cost, index, fallback⟩])
  | some (index, entry) =>
      if cost < entry.2.2 then
        let heuristic_value := cb.heuristic node
        (visited.set index (node, n_parent_idx, cost),
          pending ++ [⟨cost + heuristic_value, cost, index, fallback⟩])
      else
        (visited, pending)

/-- Walk the parent-index trail from `i` as the source's
`iter::successors(visited.get_index(p0_index), parent)` does, stopping
when the lookup fails (the root's sentinel parent).  The model carries
fuel; `visited.length` steps suffice for every chain the theorems touch
(on a cyclic chain the source would not terminate and the model
truncates). -/
def path_walk (visited : Visited N C) : Nat → Nat → List N
  | 0, _ => []
  | fuel + 1, i =>
    match visited[i]? with
    | none => []
    | some e => e.1 :: path_walk visited fuel e.2.1

/-- Path reconstruction on success: walk the parent trail from the
accepted node, then reverse. -/
def reconstruct_path (visited : Visited N C) (i : Nat) : List N :=
  (path_walk visited visited.length i).reverse

/-- Result of one iteration of the `find_inner` loop. -/
inductive StepResult (N C : Type) where
  | found : List N → C → StepResult N C
  | noPath : StepResult N C
  | next : SearchState N C → StepResult N C
deriving DecidableEq, Repr

/-- One iteration of the `for (mut node, move_cost) in successors(p0_node)`
expansion loop.  The source re-reads `p1`'s entry from the table on every
iteration (an `add_pending` of this very expansion may have overwritten
it), and re-grabs the key at `p0_index` (keys never change, and
`p0_index` stays valid because the table only grows, so the `getD`
default is never taken).  Note the source rebinds `cost` to
`cost + move_cost` before constructing the fallback, so the recorded
fallback cost is the popped cost plus *twice* `move_cost`. -/
def expand_one [DecidableEq N] [LinearOrder C] [Add C] (cb : Callbacks N C)
    (p0_index p1_index : Nat) (cost : C)
    (acc : Visited N C × List (Pending C N)) (nc : N × C) :
    Visited N C × List (Pending C N) :=
  let node := nc.1
  let move_cost := nc.2
  let cost1 := cost + move_cost
  match acc.1[p1_index]? with
  | some p1e =>
      let p0_node := ((acc.1[p0_index]?).map (fun e => e.1)).getD node
      match cb.jump_check p1e.1 p0_node node with
      | some jump_node =>
          let backup : Fallback C N := ⟨p0_index, cost1 + move_cost, node⟩
          let jump_move_cost := cb.movement_cost p1e.1 jump_node
          add_pending cb acc.1 acc.2 p1_index (p1e.2.2 + jump_move_cost) jump_node (some backup)
      | none => add_pending cb acc.1 acc.2 p0_index cost1 node none
  | none => add_pending cb acc.1 acc.2 p0_index cost1 node none

/-- Goal test and successor expansion for a popped, validated node
(the tail of the `find_inner` loop body). -/
def commit [DecidableEq N] [LinearOrder C] [Add C] (cb : Callbacks N C)
    (visited : Visited N C) (rest : List (Pending C N))
    (p0_index p1_index : Nat) (p0_node : N) (cost : C) : StepResult N C :=
  if cb.success p0_node then
    StepResult.found (reconstruct_path visited p0_index) cost
  else
    let vp := (cb.successors p0_node).foldl (expand_one cb p0_index p1_index cost) (visited, rest)
    StepResult.next ⟨vp.2, vp.1⟩

/-- One iteration of the `while let Some(Pending { .. }) = pending.pop()`
loop of `find_inner`.  The source's lookup of the popped index is
unchecked (`unwrap_unchecked`); the index-safety theorem shows the `none`
arm is never taken, and the model discards the entry there. -/
def step [DecidableEq N] [LinearOrder C] [Add C] (cb : Callbacks N C)
    (σ : SearchState N C) : StepResult N C :=
  match popMax σ.pending with
  | none => StepResult.noPath
  | some (pend, rest) =>
    match σ.visited[pend.index]? with
    | none => StepResult.next ⟨rest, σ.visited⟩
    | some (p0_node, p1_index, p0_cost) =>
      if p0_cost < pend.cost then
        StepResult.next ⟨rest, σ.visited⟩
      else
        match σ.visited[p1_index]? with
        | some p1e =>
          if cb.is_valid_move p1e.1 p0_node then
            commit cb σ.visited rest pend.index p1_index p0_node pend.cost
          else
            match pend.fallback with
            | some fb =>
                let vp := add_pending cb σ.visited rest fb.parent fb.cost fb.node none
                StepResult.next ⟨vp.2, vp.1⟩
            | none => StepResult.next ⟨rest, σ.visited⟩
        | none => commit cb σ.visited rest pend.index p1_index p0_node pend.cost

/-- Initial state built by `find`: the start node with sentinel parent
and zero cost, and one pending entry with zero cost and zero estimate at
index 0. -/
def find_start [Zero C] (start : N) : SearchState N C :=
  ⟨[⟨0, 0, 0, none⟩], [(start, USIZE_MAX, 0)]⟩

/-- Outcome of running the `find_inner` loop with bounded fuel.  The
source loop is unbounded; `fuelOut` marks runs the model cut short. -/
inductive RunResult (N C : Type) where
  | found : List N → C → RunResult N C
  | noPath : RunResult N C
  | fuelOut : RunResult N C
deriving DecidableEq, Repr

/-- Run the `find_inner` loop for at most `fuel` iterations. -/
def run_find [DecidableEq N] [LinearOrder C] [Add C] (cb : Callbacks N C) :
    Nat → SearchState N C → RunResult N C
  | 0, _ => RunResult.fuelOut
  | fuel + 1, σ =>
    match step cb σ with
    | StepResult.found p c => RunResult.found p c
    | StepResult.noPath => RunResult.noPath
    | StepResult.next σ' => run_find cb fuel σ'

/-- `k`-fold iteration of `step` while the loop continues; `none` once
the loop has stopped (with either outcome) strictly before the `k`-th
iteration. -/
def iterate [DecidableEq N] [LinearOrder C] [Add C] (cb : Callbacks N C) :
    Nat → SearchState N C → Option (SearchState N C)
  | 0, σ => some σ
  | k + 1, σ =>
    match step cb σ with
    | StepResult.next σ' => iterate cb k σ'
    | _ => none

end Pathfind
end Shorai

namespace Shorai
namespace Pathfind

/-- Concrete planner instance for the C1 counterexample (`N = C = ℕ`).
Grid: the start `0` expands to `1` (cost 1) and `2` (cost 4); `1` expands
to `3` (cost 10); `2` expands to `3` (cost 1).  Expanding `1` offers the
shortcut `0 → 4` (the jump rewriter renames the target), whose move
`is_valid_move 0 4` is invalid; every other move is valid.  The heuristic
delays the shortcut until after `3` has been discovered cheaply via
`2`. -/
def cbC1 : Callbacks ℕ ℕ where
  successors := fun n =>
    if n = 0 then [(1, 1), (2, 4)]
    else if n = 1 then [(3, 10)]
    else if n = 2 then [(3, 1)]
    else []
  is_valid_move := fun a b => !(a == 0 && b == 4)
  movement_cost := fun _ _ => 2
  heuristic := fun n => if n = 4 then 10 else 0
  success := fun _ => false
  jump_check := fun p1 p0 n => if p1 = 0 ∧ p0 = 1 ∧ n = 3 then some 4 else none

/-- The state of the `cbC1` search just before the invalid shortcut is
popped: four loop iterations from the seeded start.  The only pending
entry is the optimistic `0 → 4` jump carrying the fallback
`(parent 1, cost 21, node 3)`, and node `3` is already recorded with the
cheaper cost `5`. -/
def σC1 : SearchState ℕ ℕ :=
  ⟨[⟨12, 2, 3, some ⟨1, 21, 3⟩⟩],
   [(0, USIZE_MAX, 0), (1, 0, 1), (2, 0, 4), (4, 0, 2), (3, 2, 5)]⟩

/-- **C1 (counterexample).** A reachable search state in which a pending
optimistic shortcut edge is popped, its stored parent-to-node move
(`0 → 4`) is rejected by `is_valid_move`, and the edge carries a
fallback record — yet the planner does **not** push the fallback edge
onto the frontier: the successor state's frontier is empty, because the
fallback's node `3` is already in the visited table at cost `5 ≤ 21` and
`add_pending` silently drops such candidates. -/
theorem fallback_not_pushed_cex :
    iterate cbC1 4 (find_start 0) = some σC1 ∧
    popMax σC1.pending = some (⟨12, 2, 3, some ⟨1, 21, 3⟩⟩, []) ∧
    σC1.visited[3]? = some (4, 0, 2) ∧
    σC1.visited[0]? = some (0, USIZE_MAX, 0) ∧
    cbC1.is_valid_move 0 4 = false ∧
    step cbC1 σC1 = StepResult.next ⟨[], σC1.visited⟩ := by decide

/-- **C1 (amended).** When a pending edge is popped whose stored
parent-to-node move is rejected by `is_valid_move` and which carries a
fallback record, the planner hands the fallback (recorded parent,
recorded cost, original node value) to the standard frontier-insertion
rule and does not goal-test or expand the popped node from this edge: it
pushes the fallback as a brand-new pending entry with its heuristic
recomputed **iff** the fallback's node is absent from the visited table
or recorded there with a strictly greater cost; otherwise the fallback is
dropped. -/
theorem invalid_jump_inserts_fallback [DecidableEq N] [LinearOrder C] [Add C]
    (cb : Callbacks N C) (σ : SearchState N C) (pend : Pending C N)
    (rest : List (Pending C N)) (p0_node : N) (p1_index : Nat) (p0_cost : C)
    (p1e : N × Nat × C) (fb : Fallback C N)
    (hpop : popMax σ.pending = some (pend, rest))
    (hget : σ.visited[pend.index]? = some (p0_node, p1_index, p0_cost))
    (hstale : ¬ p0_cost < pend.cost)
    (hp1 : σ.visited[p1_index]? = some p1e)
    (hinvalid : cb.is_valid_move p1e.1 p0_node = false)
    (hfb : pend.fallback = some fb) :
    step cb σ = StepResult.next
        ⟨(add_pending cb σ.visited rest fb.parent fb.cost fb.node none).2,
         (add_pending cb σ.visited rest fb.parent fb.cost fb.node none).1⟩ ∧
    (find_entry σ.visited fb.node = none →
      (add_pending cb σ.visited rest fb.parent fb.cost fb.node none).2
        = rest ++ [⟨fb.cost + cb.heuristic fb.node, fb.cost, σ.visited.length, none⟩]) ∧
    (∀ i e, find_entry σ.visited fb.node = some (i, e) → fb.cost < e.2.2 →
      (add_pending cb σ.visited rest fb.parent fb.cost fb.node none).2
        = rest ++ [⟨fb.cost + cb.heuristic fb.node, fb.cost, i, none⟩]) ∧
    (∀ i e, find_entry σ.visited fb.node = some (i, e) → ¬ fb.cost < e.2.2 →
      (add_pending cb σ.visited rest fb.parent fb.cost fb.node none).2 = rest) := by
  refine ⟨?_, ?_, ?_, ?_⟩
  · simp only [step, hpop, hget, if_neg hstale, hp1, hinvalid, hfb, Bool.false_eq_true,
      if_false]
  · intro h
    simp only [add_pending, h]
  · intro i e h hlt
    simp only [add_pending, h, if_pos hlt]
  · intro i e h hle
    simp only [add_pending, h, if_neg hle]

/-- Witness for C1 (amended), at the concrete state `σC1`: the step is
exactly the fallback insertion, and since node `3` is recorded at cost
`5 ≤ 21` the insertion pushes nothing. -/
theorem invalid_jump_inserts_fallback_witness :
    step cbC1 σC1 = StepResult.next
        ⟨(add_pending cbC1 σC1.visited [] 1 21 3 none).2,
         (add_pending cbC1 σC1.visited [] 1 21 3 none).1⟩ ∧
    (add_pending cbC1 σC1.visited [] 1 21 3 none).2 = [] := by
  have h := invalid_jump_inserts_fallback cbC1 σC1 ⟨12, 2, 3, some ⟨1, 21, 3⟩⟩ []
    4 0 2 (0, USIZE_MAX, 0) ⟨1, 21, 3⟩
    (by decide) (by decide) (by decide) (by decide) (by decide) (by decide)
  exact ⟨h.1, h.2.2.2 4 (3, 2, 5) (by decide) (by decide)⟩

end Pathfind
end Shorai

namespace Shorai
namespace Pathfind

/-- Concrete planner instance for the C2 counterexample (`N = C = ℕ`).
The start `0` expands to `1` (cost 10) and `2` (cost 1); `1` expands to
the goal `3` (cost 1); `2` expands to `1` (cost 1).  The move `2 → 1` is
invalid, every other move is valid; there are no shortcuts.  The
heuristic (10 on node `2`, 1 on the goal) makes the search commit and
expand `1` via the valid edge `0 → 1` first, then discover the cheaper
(but invalid) route `2 → 1`, which overwrites `1`'s parent link after
`1` was already expanded. -/
def cbC2 : Callbacks ℕ ℕ where
  successors := fun n =>
    if n = 0 then [(1, 10), (2, 1)]
    else if n = 1 then [(3, 1)]
    else if n = 2 then [(1, 1)]
    else []
  is_valid_move := fun a b => !(a == 2 && b == 1)
  movement_cost := fun _ _ => 0
  heuristic := fun n => if n = 2 then 10 else if n = 3 then 1 else 0
  success := fun n => n == 3
  jump_check := fun _ _ _ => none

/-- **C2 (counterexample).** The planner returns the path
`[0, 2, 1, 3]` with cost 11, although `is_valid_move 2 1 = false`: the
pair `(2, 1)` in the returned path was never validated.  Node `1` was
popped and expanded with the validated parent `0`, after which the
cheaper pending route through `2` overwrote `1`'s parent link; that
pending entry was later popped and rejected by validation, but the
overwritten link stayed (as the source intends) and path reconstruction
from the accepted goal walks straight through it. -/
theorem returned_path_invalid_edge_cex :
    run_find cbC2 6 (find_start 0) = RunResult.found [0, 2, 1, 3] 11 ∧
    cbC2.is_valid_move 2 1 = false := by decide

end Pathfind
end Shorai

namespace Shorai
namespace Pathfind

/-- One-unfolding lemma for `path_walk`. -/
theorem path_walk_succ (v : Visited N C) (f i : Nat) :
    path_walk v (f + 1) i
      = match v[i]? with
        | none => []
        | some e => e.1 :: path_walk v f e.2.1 := rfl

/-- If `v[i]? = none` the walk is empty at any fuel. -/
theorem path_walk_none (v : Visited N C) (f i : Nat) (h : v[i]? = none) :
    path_walk v f i = [] := by
  cases f with
  | zero => rfl
  | succ f => rw [path_walk_succ, h]

/-- Helper for C2 (amended), step level: if one loop iteration accepts a
goal and returns a path with at least two nodes, then the final pair of
that path is exactly the edge the iteration just validated, so it
satisfies `is_valid_move`. -/
theorem step_found_last_edge_valid [DecidableEq N] [LinearOrder C] [Add C]
    (cb : Callbacks N C) (σ : SearchState N C) (path : List N) (c : C)
    (a b : N) (l : List N)
    (h : step cb σ = StepResult.found path c)
    (hrev : path.reverse = b :: a :: l) :
    cb.is_valid_move a b = true := by
  cases hpop : popMax σ.pending with
  | none => simp [step, hpop] at h
  | some pr =>
    obtain ⟨pend, rest⟩ := pr
    cases hget : σ.visited[pend.index]? with
    | none => simp [step, hpop, hget] at h
    | some e =>
      obtain ⟨p0n, p1i, p0c⟩ := e
      by_cases hstale : p0c < pend.cost
      · simp [step, hpop, hget, hstale] at h
      · have hpos : 0 < σ.visited.length := by
          rcases List.getElem?_eq_some.mp hget with ⟨hlt, _⟩
          exact Nat.lt_of_le_of_lt (Nat.zero_le _) hlt
        obtain ⟨f, hfl⟩ : ∃ f, σ.visited.length = f + 1 :=
          ⟨σ.visited.length - 1, (Nat.succ_pred_eq_of_pos hpos).symm⟩
        cases hp1 : σ.visited[p1i]? with
        | some p1e =>
          by_cases hvalid : cb.is_valid_move p1e.1 p0n = true
          · by_cases hsucc : cb.success p0n = true
            · have hpath : reconstruct_path σ.visited pend.index = path := by
                simp [step, hpop, hget, hstale, hp1, hvalid, commit, hsucc] at h
                exact h.1
              have hwalk : path.reverse = p0n :: path_walk σ.visited f p1i := by
                rw [← hpath]
                simp only [reconstruct_path, List.reverse_reverse, hfl, path_walk_succ, hget]
              rw [hrev] at hwalk
              simp only [List.cons.injEq] at hwalk
              obtain ⟨hb, htail⟩ := hwalk
              cases f with
              | zero => simp [path_walk] at htail
              | succ f' =>
                simp only [path_walk_succ, hp1, List.cons.injEq] at htail
                rw [htail.1, hb]
                exact hvalid
            · simp [step, hpop, hget, hstale, hp1, hvalid, commit, hsucc] at h
          · cases hfb : pend.fallback <;>
              simp [step, hpop, hget, hstale, hp1, hvalid, hfb] at h
        | none =>
          by_cases hsucc : cb.success p0n = true
          · have hpath : reconstruct_path σ.visited pend.index = path := by
              simp [step, hpop, hget, hstale, hp1, commit, hsucc] at h
              exact h.1
            have hwalk : path.reverse = [p0n] := by
              rw [← hpath]
              simp only [reconstruct_path, List.reverse_reverse, hfl, path_walk_succ, hget,
                path_walk_none σ.visited f p1i hp1]
            rw [hrev] at hwalk
            simp at hwalk
          · simp [step, hpop, hget, hstale, hp1, commit, hsucc] at h

/-- Unconditional part of the amended C2: whenever the planner returns a
path with at least two nodes, the *final* adjacent pair — the edge from
the goal's recorded parent into the accepted goal — satisfies
`is_valid_move`: it is exactly the edge validated in the accepting
iteration.  This needs no stability hypothesis at all. -/
theorem returned_path_final_edge_valid [DecidableEq N] [LinearOrder C] [Add C]
    (cb : Callbacks N C) (fuel : Nat) (σ : SearchState N C) (path : List N) (c : C)
    (a b : N) (l : List N)
    (h : run_find cb fuel σ = RunResult.found path c)
    (hrev : path.reverse = b :: a :: l) :
    cb.is_valid_move a b = true := by
  induction fuel generalizing σ with
  | zero => simp [run_find] at h
  | succ f ih =>
    cases hstep : step cb σ with
    | found p' c' =>
        have hpc : p' = path ∧ c' = c := by
          simp [run_find, hstep] at h
          exact h
        exact step_found_last_edge_valid cb σ path c a b l
          (by rw [hstep, hpc.1, hpc.2]) hrev
    | noPath => simp [run_find, hstep] at h
    | next σ' =>
        exact ih σ' (by simpa [run_find, hstep] using h)

/-- Planner instance for the C2 witness: a single valid step `0 → 1`
into the goal. -/
def cbC3 : Callbacks ℕ ℕ where
  successors := fun n => if n = 0 then [(1, 1)] else []
  is_valid_move := fun _ _ => true
  movement_cost := fun _ _ => 0
  heuristic := fun _ => 0
  success := fun n => n == 1
  jump_check := fun _ _ _ => none

/-- Concrete instantiation of the final-edge lemma: the `cbC3` search
returns `[0, 1]` with cost 1, and its final (and only) pair is valid. -/
theorem returned_path_final_edge_valid_witness : cbC3.is_valid_move 0 1 = true :=
  returned_path_final_edge_valid cbC3 3 (find_start 0) [0, 1] 1 0 1 []
    (by decide) (by decide)

end Pathfind
end Shorai

namespace Shorai
namespace Pathfind

/-- Characterisation of the `Pending` ordering: `a` is the greater heap
element (pops first) exactly when its estimate is smaller, or the
estimates tie and its `cost` is larger. -/
theorem pendingCmp_gt_iff [LinearOrder C] (a b : Pending C N) :
    pendingCmp a b = Ordering.gt ↔
      (a.estimated_cost < b.estimated_cost ∨
        (a.estimated_cost = b.estimated_cost ∧ b.cost < a.cost)) := by
  rcases h : compare b.estimated_cost a.estimated_cost with _ | _ | _ <;>
    simp only [pendingCmp, h]
  · have hlt : b.estimated_cost < a.estimated_cost := compare_lt_iff_lt.mp h
    constructor
    · intro hc; exact Ordering.noConfusion hc
    · rintro (hx | ⟨hx, -⟩)
      · exact absurd hlt (lt_asymm hx)
      · rw [hx] at hlt; exact absurd hlt (lt_irrefl _)
  · have hbe : b.estimated_cost = a.estimated_cost := compare_eq_iff_eq.mp h
    rw [compare_gt_iff_gt]
    constructor
    · intro hc; exact Or.inr ⟨hbe.symm, hc⟩
    · rintro (hx | ⟨-, hx⟩)
      · rw [hbe] at hx; exact absurd hx (lt_irrefl _)
      · exact hx
  · have hgt : a.estimated_cost < b.estimated_cost := compare_gt_iff_gt.mp h
    exact ⟨fun _ => Or.inl hgt, fun _ => trivial⟩

/-- The heap order is irreflexive on `gt`. -/
theorem pendingCmp_gt_irrefl [LinearOrder C] (a : Pending C N) :
    pendingCmp a a ≠ Ordering.gt := by
  intro h
  rcases (pendingCmp_gt_iff a a).mp h with hx | ⟨-, hx⟩ <;> exact absurd hx (lt_irrefl _)

/-- The heap order is asymmetric on `gt`. -/
theorem pendingCmp_gt_asymm [LinearOrder C] (a b : Pending C N)
    (h : pendingCmp a b = Ordering.gt) : pendingCmp b a ≠ Ordering.gt := by
  intro h'
  rcases (pendingCmp_gt_iff a b).mp h with hy | ⟨hy, hc'⟩ <;>
    rcases (pendingCmp_gt_iff b a).mp h' with hx | ⟨hx, hc⟩
  · exact absurd hy (lt_asymm hx)
  · rw [hx] at hy; exact absurd hy (lt_irrefl _)
  · rw [hy] at hx; exact absurd hx (lt_irrefl _)
  · exact absurd hc (lt_asymm hc')

/-- `not-gt` is transitive (it is the total heap preorder `≤`). -/
theorem pendingCmp_not_gt_trans [LinearOrder C] {q m x : Pending C N}
    (h1 : pendingCmp q m ≠ Ordering.gt) (h2 : pendingCmp m x ≠ Ordering.gt) :
    pendingCmp q x ≠ Ordering.gt := by
  intro h
  have h1' : ¬ (q.estimated_cost < m.estimated_cost ∨
      (q.estimated_cost = m.estimated_cost ∧ m.cost < q.cost)) :=
    fun hx => h1 ((pendingCmp_gt_iff q m).mpr hx)
  have h2' : ¬ (m.estimated_cost < x.estimated_cost ∨
      (m.estimated_cost = x.estimated_cost ∧ x.cost < m.cost)) :=
    fun hx => h2 ((pendingCmp_gt_iff m x).mpr hx)
  push_neg at h1' h2'
  rcases (pendingCmp_gt_iff q x).mp h with hx | ⟨hx, hc⟩
  · exact absurd (lt_of_lt_of_le hx (le_trans h2'.1 h1'.1)) (lt_irrefl _)
  · have hxm : m.estimated_cost = x.estimated_cost :=
      le_antisymm (hx ▸ h1'.1) h2'.1
    have hqm : q.estimated_cost = m.estimated_cost := hx.trans hxm.symm
    have hcq : q.cost ≤ m.cost := h1'.2 hqm
    have hcm : m.cost ≤ x.cost := h2'.2 hxm
    exact absurd (lt_of_lt_of_le hc (le_trans hcq hcm)) (lt_irrefl _)

/-- `popMax` on a nonempty list never fails. -/
theorem popMax_eq_none_iff [LinearOrder C] (l : List (Pending C N)) :
    popMax l = none ↔ l = [] := by
  cases l with
  | nil => simp [popMax]
  | cons x xs =>
    constructor
    · intro h
      exfalso
      cases hx : popMax (N := N) xs with
      | none => simp [popMax, hx] at h
      | some pr =>
        obtain ⟨m, r⟩ := pr
        by_cases hc : pendingCmp m x = Ordering.gt <;> simp [popMax, hx, hc] at h
    · intro h; exact absurd h (by simp)

/-- The element `popMax` returns is maximal: nothing in the heap beats
it. -/
theorem popMax_max [LinearOrder C] (l : List (Pending C N)) (p : Pending C N)
    (rest : List (Pending C N)) (h : popMax l = some (p, rest)) :
    ∀ q ∈ l, pendingCmp q p ≠ Ordering.gt := by
  induction l generalizing p rest with
  | nil => simp [popMax] at h
  | cons x xs ih =>
    cases hx : popMax (N := N) xs with
    | none =>
      have hxs : xs = [] := (popMax_eq_none_iff xs).mp hx
      simp only [popMax, hx] at h
      obtain ⟨rfl, rfl⟩ : x = p ∧ [] = rest := by
        constructor <;> [exact congrArg Prod.fst (Option.some.inj h);
          exact congrArg Prod.snd (Option.some.inj h)]
      intro q hq
      rw [hxs] at hq
      rcases List.mem_cons.mp hq with rfl | hq
      · exact pendingCmp_gt_irrefl q
      · simp at hq
    | some pr =>
      obtain ⟨m, r⟩ := pr
      by_cases hc : pendingCmp m x = Ordering.gt
      · simp only [popMax, hx, if_pos hc] at h
        obtain ⟨rfl, rfl⟩ : m = p ∧ x :: r = rest := by
          constructor <;> [exact congrArg Prod.fst (Option.some.inj h);
            exact congrArg Prod.snd (Option.some.inj h)]
        intro q hq
        rcases List.mem_cons.mp hq with rfl | hq
        · exact pendingCmp_gt_asymm m q hc
        · exact ih m r hx q hq
      · simp only [popMax, hx, if_neg hc] at h
        obtain ⟨rfl, rfl⟩ : x = p ∧ xs = rest := by
          constructor <;> [exact congrArg Prod.fst (Option.some.inj h);
            exact congrArg Prod.snd (Option.some.inj h)]
        intro q hq
        rcases List.mem_cons.mp hq with rfl | hq
        · exact pendingCmp_gt_irrefl q
        · exact pendingCmp_not_gt_trans (ih m r hx q hq) hc

/-- **C8.** The frontier's ordering on pending edges: for every pair of
pending entries, `a` is the greater heap element (and hence pops before
`b`) iff `a.estimated_cost < b.estimated_cost`, or the estimates are
equal and `a.cost > b.cost`; and the entry `popMax` removes is maximal
in this order among all entries of the frontier. -/
theorem pending_heap_order [LinearOrder C] (a b : Pending C N)
    (l : List (Pending C N)) (p : Pending C N) (rest : List (Pending C N)) :
    (pendingCmp a b = Ordering.gt ↔
      (a.estimated_cost < b.estimated_cost ∨
        (a.estimated_cost = b.estimated_cost ∧ b.cost < a.cost))) ∧
    (popMax l = some (p, rest) → ∀ q ∈ l, pendingCmp q p ≠ Ordering.gt) :=
  ⟨pendingCmp_gt_iff a b, popMax_max l p rest⟩

/-- Witness for C8: a lower estimate beats a higher one; on tied
estimates the larger cost wins; and on the concrete two-element frontier
the popped entry (estimate 1) is unbeaten. -/
theorem pending_heap_order_witness :
    pendingCmp (C := ℕ) (N := ℕ) ⟨1, 5, 0, none⟩ ⟨2, 9, 1, none⟩ = Ordering.gt ∧
    pendingCmp (C := ℕ) (N := ℕ) ⟨2, 7, 0, none⟩ ⟨2, 5, 1, none⟩ = Ordering.gt ∧
    (∀ q ∈ [(⟨2, 2, 0, none⟩ : Pending ℕ ℕ), ⟨1, 1, 1, none⟩],
      pendingCmp q ⟨1, 1, 1, none⟩ ≠ Ordering.gt) := by
  refine ⟨?_, ?_, ?_⟩
  · exact (pending_heap_order ⟨1, 5, 0, none⟩ ⟨2, 9, 1, none⟩ [] ⟨0, 0, 0, none⟩ []).1.mpr
      (Or.inl (by norm_num))
  · exact (pending_heap_order ⟨2, 7, 0, none⟩ ⟨2, 5, 1, none⟩ [] ⟨0, 0, 0, none⟩ []).1.mpr
      (Or.inr ⟨rfl, by norm_num⟩)
  · exact (pending_heap_order ⟨0, 0, 0, none⟩ ⟨0, 0, 0, none⟩
      [⟨2, 2, 0, none⟩, ⟨1, 1, 1, none⟩] ⟨1, 1, 1, none⟩ [⟨2, 2, 0, none⟩]).2 (by decide)

end Pathfind
end Shorai

namespace Shorai
namespace Pathfind

/-- One loop iteration reports "no path" exactly when the frontier is
empty; every other branch of the loop body continues or accepts. -/
theorem step_eq_noPath_iff [DecidableEq N] [LinearOrder C] [Add C]
    (cb : Callbacks N C) (σ : SearchState N C) :
    step cb σ = StepResult.noPath ↔ σ.pending = [] := by
  constructor
  · intro h
    cases hpop : popMax σ.pending with
    | none => exact (popMax_eq_none_iff σ.pending).mp hpop
    | some pr =>
      exfalso
      obtain ⟨pend, rest⟩ := pr
      cases hget : σ.visited[pend.index]? with
      | none => simp [step, hpop, hget] at h
      | some e =>
        obtain ⟨p0n, p1i, p0c⟩ := e
        by_cases hstale : p0c < pend.cost
        · simp [step, hpop, hget, hstale] at h
        · cases hp1 : σ.visited[p1i]? with
          | some p1e =>
            by_cases hvalid : cb.is_valid_move p1e.1 p0n = true
            · by_cases hsucc : cb.success p0n = true <;>
                simp [step, hpop, hget, hstale, hp1, hvalid, commit, hsucc] at h
            · cases hfb : pend.fallback <;>
                simp [step, hpop, hget, hstale, hp1, hvalid, hfb] at h
          | none =>
            by_cases hsucc : cb.success p0n = true <;>
              simp [step, hpop, hget, hstale, hp1, commit, hsucc] at h
  · intro h
    have hpop : popMax (N := N) σ.pending = none := (popMax_eq_none_iff σ.pending).mpr h
    simp [step, hpop]

/-- **C9.** The planner reports "no path" (the `none` arm) if and only if
the pending frontier becomes empty — before any iteration accepts a goal
or stops otherwise — within the inspected fuel; the model's only other
outcomes are `found` (goal accepted by a popped, validated node) and
`fuelOut` (an artifact of the bounded model: the source loop just keeps
running). -/
theorem no_path_iff_frontier_empties [DecidableEq N] [LinearOrder C] [Add C]
    (cb : Callbacks N C) (fuel : Nat) (σ : SearchState N C) :
    run_find cb fuel σ = RunResult.noPath ↔
      ∃ k, k < fuel ∧ ∃ σ', iterate cb k σ = some σ' ∧ σ'.pending = [] := by
  induction fuel generalizing σ with
  | zero => simp [run_find]
  | succ f ih =>
    cases hstep : step cb σ with
    | found p c =>
      simp only [run_find, hstep]
      constructor
      · intro h; exact absurd h (by simp)
      · rintro ⟨k, hk, σ'', hit, hemp⟩
        exfalso
        cases k with
        | zero =>
          simp only [iterate, Option.some.injEq] at hit
          rw [← hit] at hemp
          rw [(step_eq_noPath_iff cb σ).mpr hemp] at hstep
          exact StepResult.noConfusion hstep
        | succ j => simp [iterate, hstep] at hit
    | noPath =>
      simp only [run_find, hstep]
      constructor
      · intro _
        exact ⟨0, Nat.succ_pos f, σ, rfl, (step_eq_noPath_iff cb σ).mp hstep⟩
      · intro _; trivial
    | next σ' =>
      simp only [run_find, hstep]
      rw [ih σ']
      constructor
      · rintro ⟨j, hj, σ'', hit, hemp⟩
        exact ⟨j + 1, Nat.succ_lt_succ hj, σ'', by simp [iterate, hstep, hit], hemp⟩
      · rintro ⟨k, hk, σ'', hit, hemp⟩
        cases k with
        | zero =>
          exfalso
          simp only [iterate, Option.some.injEq] at hit
          rw [← hit] at hemp
          rw [(step_eq_noPath_iff cb σ).mpr hemp] at hstep
          exact StepResult.noConfusion hstep
        | succ j =>
          refine ⟨j, Nat.lt_of_succ_lt_succ hk, σ'', ?_, hemp⟩
          simpa [iterate, hstep] using hit

end Pathfind
end Shorai

namespace Shorai
namespace Pathfind

/-- A pending entry is well-formed for a table of length `len`: its
target index, and the parent index of any fallback it carries, are valid
indices. -/
def WFpend (len : Nat) (p : Pending C N) : Prop :=
  p.index < len ∧ ∀ fb ∈ p.fallback, fb.parent < len

/-- A stored parent link is well-formed: a valid index or the root's
sentinel. -/
def WFparent (len pi : Nat) : Prop := pi < len ∨ pi = USIZE_MAX

/-- Search-state well-formedness: every pending entry and every stored
parent link is well-formed for the current table length. -/
def WF (σ : SearchState N C) : Prop :=
  (∀ p ∈ σ.pending, WFpend σ.visited.length p) ∧
  (∀ e ∈ σ.visited, WFparent σ.visited.length e.2.1)

instance (len : Nat) (p : Pending C N) : Decidable (WFpend len p) := by
  unfold WFpend; infer_instance

instance (len pi : Nat) : Decidable (WFparent len pi) := by
  unfold WFparent; infer_instance

instance (σ : SearchState N C) : Decidable (WF σ) := by
  unfold WF; infer_instance

theorem WFpend_mono {len len' : Nat} (h : len ≤ len') {p : Pending C N}
    (hp : WFpend len p) : WFpend len' p :=
  ⟨lt_of_lt_of_le hp.1 h, fun fb hfb => lt_of_lt_of_le (hp.2 fb hfb) h⟩

theorem WFparent_mono {len len' : Nat} (h : len ≤ len') {pi : Nat}
    (hp : WFparent len pi) : WFparent len' pi :=
  hp.elim (fun h' => Or.inl (lt_of_lt_of_le h' h)) Or.inr

/-- `find_entry` returns a valid index. -/
theorem find_entry_lt [DecidableEq N] (v : Visited N C) (node : N) :
    ∀ i e, find_entry v node = some (i, e) → i < v.length := by
  induction v with
  | nil => intro i e h; simp [find_entry] at h
  | cons x xs ih =>
    intro i e h
    by_cases hx : x.1 = node
    · simp only [find_entry, if_pos hx, Option.some.injEq] at h
      have h0 : 0 = i := congrArg Prod.fst h
      simp [← h0]
    · simp only [find_entry, if_neg hx, Option.map_eq_some'] at h
      obtain ⟨⟨j, e'⟩, hje, heq⟩ := h
      have hj := ih j e' hje
      have hji : j + 1 = i := congrArg Prod.fst heq
      simp only [List.length_cons, ← hji]
      exact Nat.succ_lt_succ hj

/-- `popMax` returns a member and leaves only members behind. -/
theorem popMax_mem [LinearOrder C] (l : List (Pending C N)) (p : Pending C N)
    (rest : List (Pending C N)) (h : popMax l = some (p, rest)) :
    p ∈ l ∧ ∀ q ∈ rest, q ∈ l := by
  induction l generalizing p rest with
  | nil => simp [popMax] at h
  | cons x xs ih =>
    cases hx : popMax (N := N) xs with
    | none =>
      simp only [popMax, hx] at h
      obtain ⟨rfl, rfl⟩ : x = p ∧ [] = rest := by
        constructor <;> [exact congrArg Prod.fst (Option.some.inj h);
          exact congrArg Prod.snd (Option.some.inj h)]
      exact ⟨List.mem_cons_self x xs, by simp⟩
    | some pr =>
      obtain ⟨m, r⟩ := pr
      obtain ⟨hm, hr⟩ := ih m r hx
      by_cases hc : pendingCmp m x = Ordering.gt
      · simp only [popMax, hx, if_pos hc] at h
        obtain ⟨rfl, rfl⟩ : m = p ∧ x :: r = rest := by
          constructor <;> [exact congrArg Prod.fst (Option.some.inj h);
            exact congrArg Prod.snd (Option.some.inj h)]
        refine ⟨List.mem_cons_of_mem x hm, ?_⟩
        intro q hq
        rcases List.mem_cons.mp hq with rfl | hq
        · exact List.mem_cons_self q xs
        · exact List.mem_cons_of_mem x (hr q hq)
      · simp only [popMax, hx, if_neg hc] at h
        obtain ⟨rfl, rfl⟩ : x = p ∧ xs = rest := by
          constructor <;> [exact congrArg Prod.fst (Option.some.inj h);
            exact congrArg Prod.snd (Option.some.inj h)]
        exact ⟨List.mem_cons_self _ _, fun q hq => List.mem_cons_of_mem _ hq⟩

/-- `add_pending` only grows the table and preserves well-formedness of
the table and the frontier, given the inserted parent index (and any
fallback parent) is valid. -/
theorem add_pending_wf [DecidableEq N] [LinearOrder C] [Add C] (cb : Callbacks N C)
    (v : Visited N C) (pd : List (Pending C N)) (par : Nat) (cost : C) (node : N)
    (fb : Option (Fallback C N))
    (hv : ∀ e ∈ v, WFparent v.length e.2.1)
    (hp : ∀ p ∈ pd, WFpend v.length p)
    (hpar : par < v.length)
    (hfb : ∀ f ∈ fb, f.parent < v.length) :
    v.length ≤ (add_pending cb v pd par cost node fb).1.length ∧
    (∀ e ∈ (add_pending cb v pd par cost node fb).1,
      WFparent (add_pending cb v pd par cost node fb).1.length e.2.1) ∧
    (∀ p ∈ (add_pending cb v pd par cost node fb).2,
      WFpend (add_pending cb v pd par cost node fb).1.length p) := by
  cases hfe : find_entry v node with
  | none =>
    simp only [add_pending, hfe]
    refine ⟨by simp, ?_, ?_⟩
    · intro e he
      rcases List.mem_append.mp he with he | he
      · exact WFparent_mono (by simp) (hv e he)
      · simp only [List.mem_singleton] at he
        subst he
        exact Or.inl (lt_of_lt_of_le hpar (by simp))
    · intro p hp'
      rcases List.mem_append.mp hp' with h' | h'
      · exact WFpend_mono (by simp) (hp p h')
      · simp only [List.mem_singleton] at h'
        subst h'
        refine ⟨by simp, ?_⟩
        intro f hf
        exact lt_of_lt_of_le (hfb f hf) (by simp)
  | some pr =>
    obtain ⟨i, entry⟩ := pr
    by_cases hlt : cost < entry.2.2
    · have hilen : i < v.length := find_entry_lt v node i entry hfe
      simp only [add_pending, hfe, if_pos hlt]
      have hsetlen : (v.set i (node, par, cost)).length = v.length := by simp
      refine ⟨by rw [hsetlen], ?_, ?_⟩
      · intro e he
        rw [hsetlen]
        rcases List.mem_or_eq_of_mem_set he with he' | he'
        · exact hv e he'
        · subst he'; exact Or.inl hpar
      · intro p hp'
        rw [hsetlen]
        rcases List.mem_append.mp hp' with h' | h'
        · exact hp p h'
        · simp only [List.mem_singleton] at h'
          subst h'
          exact ⟨hilen, fun f hf => hfb f hf⟩
    · simp only [add_pending, hfe, if_neg hlt]
      exact ⟨le_refl _, hv, hp⟩

end Pathfind
end Shorai

namespace Shorai
namespace Pathfind

/-- One expansion iteration only grows the table and preserves
well-formedness. -/
theorem expand_one_wf [DecidableEq N] [LinearOrder C] [Add C] (cb : Callbacks N C)
    (p0 p1 : Nat) (cost : C) (acc : Visited N C × List (Pending C N)) (nc : N × C)
    (h0 : p0 < acc.1.length)
    (hv : ∀ e ∈ acc.1, WFparent acc.1.length e.2.1)
    (hp : ∀ p ∈ acc.2, WFpend acc.1.length p) :
    acc.1.length ≤ (expand_one cb p0 p1 cost acc nc).1.length ∧
    (∀ e ∈ (expand_one cb p0 p1 cost acc nc).1,
      WFparent (expand_one cb p0 p1 cost acc nc).1.length e.2.1) ∧
    (∀ p ∈ (expand_one cb p0 p1 cost acc nc).2,
      WFpend (expand_one cb p0 p1 cost acc nc).1.length p) := by
  cases hp1e : acc.1[p1]? with
  | none =>
    simp only [expand_one, hp1e]
    exact add_pending_wf cb acc.1 acc.2 p0 _ _ none hv hp h0 (by simp)
  | some p1e =>
    have hp1lt : p1 < acc.1.length := by
      rcases List.getElem?_eq_some.mp hp1e with ⟨hlt, -⟩; exact hlt
    cases hj : cb.jump_check p1e.1 (((acc.1[p0]?).map (fun e => e.1)).getD nc.1) nc.1 with
    | none =>
      simp only [expand_one, hp1e, hj]
      exact add_pending_wf cb acc.1 acc.2 p0 _ _ none hv hp h0 (by simp)
    | some jn =>
      simp only [expand_one, hp1e, hj]
      refine add_pending_wf cb acc.1 acc.2 p1 _ _ _ hv hp hp1lt ?_
      intro f hf
      rw [Option.mem_def, Option.some.injEq] at hf
      rw [← hf]
      exact h0

/-- The whole expansion fold preserves well-formedness. -/
theorem expand_fold_wf [DecidableEq N] [LinearOrder C] [Add C] (cb : Callbacks N C)
    (p0 p1 : Nat) (cost : C) (l : List (N × C)) :
    ∀ (acc : Visited N C × List (Pending C N)),
      p0 < acc.1.length →
      (∀ e ∈ acc.1, WFparent acc.1.length e.2.1) →
      (∀ p ∈ acc.2, WFpend acc.1.length p) →
      ((∀ e ∈ (l.foldl (expand_one cb p0 p1 cost) acc).1,
          WFparent (l.foldl (expand_one cb p0 p1 cost) acc).1.length e.2.1) ∧
       (∀ p ∈ (l.foldl (expand_one cb p0 p1 cost) acc).2,
          WFpend (l.foldl (expand_one cb p0 p1 cost) acc).1.length p)) := by
  induction l with
  | nil => intro acc _ hv hp; simp only [List.foldl_nil]; exact ⟨hv, hp⟩
  | cons nc rest ih =>
    intro acc h0 hv hp
    obtain ⟨hle, hv', hp'⟩ := expand_one_wf cb p0 p1 cost acc nc h0 hv hp
    simp only [List.foldl_cons]
    exact ih (expand_one cb p0 p1 cost acc nc) (lt_of_lt_of_le h0 hle) hv' hp'

/-- The seeded start state is well-formed. -/
theorem find_start_wf [Zero C] (start : N) : WF (find_start (N := N) (C := C) start) := by
  constructor
  · intro p hp
    simp only [find_start, List.mem_singleton] at hp
    subst hp
    exact ⟨by norm_num [find_start], by simp⟩
  · intro e he
    simp only [find_start, List.mem_singleton] at he
    subst he
    exact Or.inr rfl

/-- One loop iteration preserves well-formedness. -/
theorem step_preserves_wf [DecidableEq N] [LinearOrder C] [Add C]
    (cb : Callbacks N C) (σ σ' : SearchState N C) (hwf : WF σ)
    (h : step cb σ = StepResult.next σ') : WF σ' := by
  obtain ⟨hpend, hvis⟩ := hwf
  cases hpop : popMax σ.pending with
  | none => simp [step, hpop] at h
  | some pr =>
    obtain ⟨pend, rest⟩ := pr
    obtain ⟨hpmem, hrmem⟩ := popMax_mem σ.pending pend rest hpop
    have hrestwf : ∀ q ∈ rest, WFpend σ.visited.length q :=
      fun q hq => hpend q (hrmem q hq)
    have hpidx : pend.index < σ.visited.length := (hpend pend hpmem).1
    cases hget : σ.visited[pend.index]? with
    | none =>
      simp only [step, hpop, hget, StepResult.next.injEq] at h
      subst h
      exact ⟨hrestwf, hvis⟩
    | some e =>
      obtain ⟨p0n, p1i, p0c⟩ := e
      by_cases hstale : p0c < pend.cost
      · simp only [step, hpop, hget, if_pos hstale, StepResult.next.injEq] at h
        subst h
        exact ⟨hrestwf, hvis⟩
      · cases hp1 : σ.visited[p1i]? with
        | some p1e =>
          by_cases hvalid : cb.is_valid_move p1e.1 p0n = true
          · by_cases hsucc : cb.success p0n = true
            · simp [step, hpop, hget, hstale, hp1, hvalid, commit, hsucc] at h
            · simp only [step, hpop, hget, if_neg hstale, hp1, if_pos hvalid, commit,
                hsucc, Bool.false_eq_true, if_false, StepResult.next.injEq] at h
              subst h
              obtain ⟨hv', hp'⟩ := expand_fold_wf cb pend.index p1i pend.cost
                (cb.successors p0n) (σ.visited, rest) hpidx hvis hrestwf
              exact ⟨hp', hv'⟩
          · cases hfb : pend.fallback with
            | some fb =>
              simp only [step, hpop, hget, if_neg hstale, hp1, if_neg hvalid, hfb,
                StepResult.next.injEq] at h
              subst h
              have hfbp : fb.parent < σ.visited.length :=
                (hpend pend hpmem).2 fb hfb
              obtain ⟨-, hv', hp'⟩ := add_pending_wf cb σ.visited rest fb.parent fb.cost
                fb.node none hvis hrestwf hfbp (by simp)
              exact ⟨hp', hv'⟩
            | none =>
              simp only [step, hpop, hget, if_neg hstale, hp1, if_neg hvalid, hfb,
                StepResult.next.injEq] at h
              subst h
              exact ⟨hrestwf, hvis⟩
        | none =>
          by_cases hsucc : cb.success p0n = true
          · simp [step, hpop, hget, hstale, hp1, commit, hsucc] at h
          · simp only [step, hpop, hget, if_neg hstale, hp1, commit, hsucc,
              Bool.false_eq_true, if_false, StepResult.next.injEq] at h
            subst h
            obtain ⟨hv', hp'⟩ := expand_fold_wf cb pend.index p1i pend.cost
              (cb.successors p0n) (σ.visited, rest) hpidx hvis hrestwf
            exact ⟨hp', hv'⟩

/-- **C10.** Index safety of the search: the seeded start state is
well-formed; every loop iteration preserves well-formedness; in a
well-formed state the index popped from the frontier is a valid index of
the visited table (so the source's unchecked lookup cannot fail), and
every stored parent link is a valid index or the root's sentinel
`usize::MAX`; the sentinel resolves to no entry whenever the table is no
longer than `usize::MAX` (always, in the source), which is what makes the
root bypass the deferred validation. -/
theorem visited_index_safety [DecidableEq N] [LinearOrder C] [Add C] [Zero C]
    (cb : Callbacks N C) (start : N) (σ σ' : SearchState N C)
    (pend : Pending C N) (rest : List (Pending C N)) :
    WF (find_start (N := N) (C := C) start) ∧
    (WF σ → step cb σ = StepResult.next σ' → WF σ') ∧
    (WF σ → popMax σ.pending = some (pend, rest) →
      pend.index < σ.visited.length ∧
      ∀ e ∈ σ.visited, e.2.1 < σ.visited.length ∨ e.2.1 = USIZE_MAX) ∧
    (σ.visited.length ≤ USIZE_MAX → σ.visited[USIZE_MAX]? = none) ∧
    (∀ n pi c, popMax σ.pending = some (pend, rest) →
      σ.visited[pend.index]? = some (n, pi, c) → ¬ c < pend.cost →
      pi = USIZE_MAX → σ.visited.length ≤ USIZE_MAX →
      step cb σ = commit cb σ.visited rest pend.index pi n pend.cost) := by
  refine ⟨find_start_wf start,
    fun hwf h => step_preserves_wf cb σ σ' hwf h,
    fun hwf hpop =>
      ⟨(hwf.1 pend (popMax_mem σ.pending pend rest hpop).1).1, fun e he => hwf.2 e he⟩,
    fun hlen => List.getElem?_eq_none hlen, ?_⟩
  intro n pi c hpop hget hstale hpi hlen
  have hnone : σ.visited[pi]? = none := by
    rw [hpi]; exact List.getElem?_eq_none hlen
  simp only [step, hpop, hget, if_neg hstale, hnone]

/-- Witness for C10, on the `cbC3` instance: the start state is
well-formed, its single step preserves well-formedness, the popped root
index is valid, `usize::MAX` resolves to no entry, and the root's
sentinel parent makes its iteration go straight to the goal-test-and-
expand stage, skipping validation. -/
theorem visited_index_safety_witness :
    WF (find_start (N := ℕ) (C := ℕ) 0) ∧
    WF (⟨[⟨1, 1, 1, none⟩], [(0, USIZE_MAX, 0), (1, 0, 1)]⟩ : SearchState ℕ ℕ) ∧
    ((⟨0, 0, 0, none⟩ : Pending ℕ ℕ).index < (find_start (N := ℕ) (C := ℕ) 0).visited.length ∧
      ∀ e ∈ (find_start (N := ℕ) (C := ℕ) 0).visited,
        e.2.1 < (find_start (N := ℕ) (C := ℕ) 0).visited.length ∨ e.2.1 = USIZE_MAX) ∧
    (find_start (N := ℕ) (C := ℕ) 0).visited[USIZE_MAX]? = none ∧
    step cbC3 (find_start 0)
      = commit cbC3 (find_start (N := ℕ) (C := ℕ) 0).visited [] 0 USIZE_MAX 0 0 := by
  have h := visited_index_safety cbC3 0 (find_start 0)
    ⟨[⟨1, 1, 1, none⟩], [(0, USIZE_MAX, 0), (1, 0, 1)]⟩ ⟨0, 0, 0, none⟩ []
  exact ⟨h.1, h.2.1 (by decide) (by decide), h.2.2.1 (by decide) (by decide),
    h.2.2.2.1 (by decide),
    h.2.2.2.2 0 USIZE_MAX 0 (by decide) (by decide) (by decide) rfl (by decide)⟩

end Pathfind
end Shorai

namespace Shorai
namespace Pathfind

/-- Membership from an index lookup. -/
theorem mem_of_getElem_some {α : Type} {l : List α} {n : Nat} {a : α}
    (h : l[n]? = some a) : a ∈ l := by
  rcases List.getElem?_eq_some.mp h with ⟨hlt, hget⟩
  exact hget ▸ List.getElem_mem hlt

/-- The stored edge of a visited entry is validated: every resolution of
its parent index yields a node from which the move to the entry's node
passes `is_valid_move`. -/
def edge_ok [DecidableEq N] (cb : Callbacks N C) (v : Visited N C)
    (pe : N × Nat × C) : Prop :=
  ∀ ppe ∈ v[pe.2.1]?, cb.is_valid_move ppe.1 pe.1 = true

/-- Index `r` is a sound parent reference in table `v`: whatever entry it
resolves to has a validated stored edge. -/
def RefOk [DecidableEq N] (cb : Callbacks N C) (v : Visited N C) (r : Nat) : Prop :=
  ∀ pe ∈ v[r]?, edge_ok cb v pe

/-- Index `j` is referenced in state `σ`: it is some visited entry's
stored parent index, or the recorded parent of a fallback carried by
some pending edge. -/
def Referenced (σ : SearchState N C) (j : Nat) : Prop :=
  (∃ e ∈ σ.visited, e.2.1 = j) ∨ (∃ p ∈ σ.pending, ∃ fb ∈ p.fallback, fb.parent = j)

/-- Index `j` is protected in state `σ`: referenced, or the index of the
frontier entry about to be popped. -/
def Protected [LinearOrder C] (σ : SearchState N C) (j : Nat) : Prop :=
  Referenced σ j ∨ ∃ pr ∈ popMax σ.pending, (pr.1).index = j

/-- All parent references of a state are sound: every visited entry's
stored parent index and every pending fallback's recorded parent index
is a sound reference. -/
def ParentsValidated [DecidableEq N] (cb : Callbacks N C) (σ : SearchState N C) : Prop :=
  (∀ e ∈ σ.visited, RefOk cb σ.visited e.2.1) ∧
  (∀ p ∈ σ.pending, ∀ fb ∈ p.fallback, RefOk cb σ.visited fb.parent)

instance [DecidableEq N] (cb : Callbacks N C) (v : Visited N C) (pe : N × Nat × C) :
    Decidable (edge_ok cb v pe) := by
  unfold edge_ok; infer_instance

instance [DecidableEq N] (cb : Callbacks N C) (v : Visited N C) (r : Nat) :
    Decidable (RefOk cb v r) := by
  unfold RefOk; infer_instance

instance [DecidableEq N] (cb : Callbacks N C) (σ : SearchState N C) :
    Decidable (ParentsValidated cb σ) := by
  unfold ParentsValidated; infer_instance

/-- References after `add_pending`, abstractly: if every reference of the
table and the frontier satisfies `G`, the inserted parent satisfies `G`,
and the recorded parent of the inserted fallback (if any) satisfies `G`,
then every reference of the result satisfies `G`. -/
theorem add_pending_refs {G : Nat → Prop} [DecidableEq N] [LinearOrder C] [Add C]
    (cb : Callbacks N C) (v : Visited N C) (pd : List (Pending C N))
    (par : Nat) (cost : C) (node : N) (fbopt : Option (Fallback C N))
    (hGv : ∀ e ∈ v, G e.2.1) (hGp : ∀ p ∈ pd, ∀ fb ∈ p.fallback, G fb.parent)
    (hGpar : G par) (hGfb : ∀ f ∈ fbopt, G f.parent) :
    (∀ e ∈ (add_pending cb v pd par cost node fbopt).1, G e.2.1) ∧
    (∀ p ∈ (add_pending cb v pd par cost node fbopt).2, ∀ fb ∈ p.fallback, G fb.parent) := by
  cases hfe : find_entry v node with
  | none =>
    simp only [add_pending, hfe]
    constructor
    · intro e he
      rcases List.mem_append.mp he with he | he
      · exact hGv e he
      · simp only [List.mem_singleton] at he; subst he; exact hGpar
    · intro p hp fb hfb
      rcases List.mem_append.mp hp with hp | hp
      · exact hGp p hp fb hfb
      · simp only [List.mem_singleton] at hp; subst hp; exact hGfb fb hfb
  | some pr =>
    obtain ⟨i, entry⟩ := pr
    by_cases hlt : cost < entry.2.2
    · simp only [add_pending, hfe, if_pos hlt]
      constructor
      · intro e he
        rcases List.mem_or_eq_of_mem_set he with he | he
        · exact hGv e he
        · subst he; exact hGpar
      · intro p hp fb hfb
        rcases List.mem_append.mp hp with hp | hp
        · exact hGp p hp fb hfb
        · simp only [List.mem_singleton] at hp; subst hp; exact hGfb fb hfb
    · simp only [add_pending, hfe, if_neg hlt]
      exact ⟨hGv, hGp⟩

/-- References after one expansion iteration, abstractly: the only
parents it can write are `p0_index` (normal edges and fallback records)
and `p1_index` (shortcut edges). -/
theorem expand_one_refs {G : Nat → Prop} [DecidableEq N] [LinearOrder C] [Add C]
    (cb : Callbacks N C) (p0 p1 : Nat) (cost : C)
    (acc : Visited N C × List (Pending C N)) (nc : N × C)
    (hGv : ∀ e ∈ acc.1, G e.2.1) (hGp : ∀ p ∈ acc.2, ∀ fb ∈ p.fallback, G fb.parent)
    (hG0 : G p0) (hG1 : G p1) :
    (∀ e ∈ (expand_one cb p0 p1 cost acc nc).1, G e.2.1) ∧
    (∀ p ∈ (expand_one cb p0 p1 cost acc nc).2, ∀ fb ∈ p.fallback, G fb.parent) := by
  cases hp1e : acc.1[p1]? with
  | none =>
    simp only [expand_one, hp1e]
    exact add_pending_refs cb acc.1 acc.2 p0 _ _ none hGv hGp hG0 (by simp)
  | some p1e =>
    cases hj : cb.jump_check p1e.1 (((acc.1[p0]?).map (fun e => e.1)).getD nc.1) nc.1 with
    | none =>
      simp only [expand_one, hp1e, hj]
      exact add_pending_refs cb acc.1 acc.2 p0 _ _ none hGv hGp hG0 (by simp)
    | some jn =>
      simp only [expand_one, hp1e, hj]
      refine add_pending_refs cb acc.1 acc.2 p1 _ _ _ hGv hGp hG1 ?_
      intro f hf
      rw [Option.mem_def, Option.some.injEq] at hf
      rw [← hf]
      exact hG0

/-- References after the whole expansion fold, abstractly. -/
theorem expand_fold_refs {G : Nat → Prop} [DecidableEq N] [LinearOrder C] [Add C]
    (cb : Callbacks N C) (p0 p1 : Nat) (cost : C) (l : List (N × C))
    (hG0 : G p0) (hG1 : G p1) :
    ∀ (acc : Visited N C × List (Pending C N)),
      (∀ e ∈ acc.1, G e.2.1) → (∀ p ∈ acc.2, ∀ fb ∈ p.fallback, G fb.parent) →
      (∀ e ∈ (l.foldl (expand_one cb p0 p1 cost) acc).1, G e.2.1) ∧
      (∀ p ∈ (l.foldl (expand_one cb p0 p1 cost) acc).2, ∀ fb ∈ p.fallback, G fb.parent) := by
  induction l with
  | nil => intro acc hGv hGp; simp only [List.foldl_nil]; exact ⟨hGv, hGp⟩
  | cons nc rest ih =>
    intro acc hGv hGp
    obtain ⟨hGv', hGp'⟩ := expand_one_refs cb p0 p1 cost acc nc hGv hGp hG0 hG1
    simp only [List.foldl_cons]
    exact ih (expand_one cb p0 p1 cost acc nc) hGv' hGp'

end Pathfind
end Shorai

namespace Shorai
namespace Pathfind

/-- A sound reference into the pre-step state `σ`: protected (so its
entry survives a non-reopening step), in range, and `RefOk` — or the
sentinel. -/
def Gref [DecidableEq N] [LinearOrder C] (cb : Callbacks N C)
    (σ : SearchState N C) (r : Nat) : Prop :=
  (Protected σ r ∧ r < σ.visited.length ∧ RefOk cb σ.visited r) ∨ r = USIZE_MAX

/-- Transfer of validated references across one step: if every reference
of the successor state is `Gref`-sound for the pre-state, the step left
every protected entry unchanged, and the successor table is no longer
than `usize::MAX`, then the successor state's references are all
validated. -/
theorem pv_transfer [DecidableEq N] [LinearOrder C] (cb : Callbacks N C)
    (σ σ' : SearchState N C)
    (hwf : WF σ) (hstab : ∀ j, Protected σ j → σ'.visited[j]? = σ.visited[j]?)
    (hlen' : σ'.visited.length ≤ USIZE_MAX)
    (hGv : ∀ e ∈ σ'.visited, Gref cb σ e.2.1)
    (hGp : ∀ p ∈ σ'.pending, ∀ fb ∈ p.fallback, Gref cb σ fb.parent) :
    ParentsValidated cb σ' := by
  have href : ∀ r, Gref cb σ r → RefOk cb σ'.visited r := by
    intro r hG pe' hpe'
    rw [Option.mem_def] at hpe'
    rcases hG with ⟨hprot, hlt, hrefok⟩ | hmax
    · rw [hstab r hprot] at hpe'
      have hro : edge_ok cb σ.visited pe' := hrefok pe' hpe'
      intro ppe' hppe'
      rw [Option.mem_def] at hppe'
      have hmem : pe' ∈ σ.visited := mem_of_getElem_some hpe'
      rcases hwf.2 pe' hmem with hplt | hpmax
      · have hpref : Protected σ pe'.2.1 := Or.inl (Or.inl ⟨pe', hmem, rfl⟩)
        rw [hstab pe'.2.1 hpref] at hppe'
        exact hro ppe' hppe'
      · rw [hpmax, List.getElem?_eq_none hlen'] at hppe'
        exact absurd hppe' (by simp)
    · rw [hmax, List.getElem?_eq_none hlen'] at hpe'
      exact absurd hpe' (by simp)
  exact ⟨fun e he => href e.2.1 (hGv e he),
    fun p hp fb hfb => href fb.parent (hGp p hp fb hfb)⟩

/-- One loop iteration preserves validated references, provided it does
not overwrite any protected entry and keeps the table within
`usize::MAX`. -/
theorem step_preserves_pv [DecidableEq N] [LinearOrder C] [Add C]
    (cb : Callbacks N C) (σ σ' : SearchState N C)
    (hwf : WF σ) (hpv : ParentsValidated cb σ)
    (hstep : step cb σ = StepResult.next σ')
    (hstab : ∀ j, Protected σ j → σ'.visited[j]? = σ.visited[j]?)
    (hlen' : σ'.visited.length ≤ USIZE_MAX) :
    ParentsValidated cb σ' := by
  have hGv0 : ∀ e ∈ σ.visited, Gref cb σ e.2.1 := by
    intro e he
    rcases hwf.2 e he with hlt | hmax
    · exact Or.inl ⟨Or.inl (Or.inl ⟨e, he, rfl⟩), hlt, hpv.1 e he⟩
    · exact Or.inr hmax
  cases hpop : popMax σ.pending with
  | none => simp [step, hpop] at hstep
  | some pr =>
    obtain ⟨pend, rest⟩ := pr
    obtain ⟨hpmem, hrmem⟩ := popMax_mem σ.pending pend rest hpop
    have hpidx : pend.index < σ.visited.length := (hwf.1 pend hpmem).1
    have hGp0 : ∀ p ∈ rest, ∀ fb ∈ p.fallback, Gref cb σ fb.parent := by
      intro p hp fb hfb
      have hpm : p ∈ σ.pending := hrmem p hp
      exact Or.inl ⟨Or.inl (Or.inr ⟨p, hpm, fb, hfb, rfl⟩),
        (hwf.1 p hpm).2 fb hfb, hpv.2 p hpm fb hfb⟩
    cases hget : σ.visited[pend.index]? with
    | none =>
      simp only [step, hpop, hget, StepResult.next.injEq] at hstep
      subst hstep
      exact ⟨hpv.1, fun p hp fb hfb => hpv.2 p (hrmem p hp) fb hfb⟩
    | some e =>
      obtain ⟨p0n, p1i, p0c⟩ := e
      have hemem : (p0n, p1i, p0c) ∈ σ.visited := mem_of_getElem_some hget
      by_cases hstale : p0c < pend.cost
      · simp only [step, hpop, hget, if_pos hstale, StepResult.next.injEq] at hstep
        subst hstep
        exact ⟨hpv.1, fun p hp fb hfb => hpv.2 p (hrmem p hp) fb hfb⟩
      · have hG0 : ∀ (hro : RefOk cb σ.visited pend.index), Gref cb σ pend.index :=
          fun hro => Or.inl ⟨Or.inr ⟨(pend, rest), hpop, rfl⟩, hpidx, hro⟩
        cases hp1 : σ.visited[p1i]? with
        | some p1e =>
          by_cases hvalid : cb.is_valid_move p1e.1 p0n = true
          · by_cases hsucc : cb.success p0n = true
            · simp [step, hpop, hget, hstale, hp1, hvalid, commit, hsucc] at hstep
            · simp only [step, hpop, hget, if_neg hstale, hp1, if_pos hvalid, commit,
                hsucc, Bool.false_eq_true, if_false, StepResult.next.injEq] at hstep
              subst hstep
              have hro : RefOk cb σ.visited pend.index := by
                intro pe hpe
                rw [Option.mem_def, hget, Option.some.injEq] at hpe
                subst hpe
                intro ppe hppe
                rw [Option.mem_def, hp1, Option.some.injEq] at hppe
                subst hppe
                exact hvalid
              have hG1 : Gref cb σ p1i := by
                refine Or.inl ⟨Or.inl (Or.inl ⟨(p0n, p1i, p0c), hemem, rfl⟩), ?_, ?_⟩
                · exact (List.getElem?_eq_some.mp hp1).1
                · exact hpv.1 (p0n, p1i, p0c) hemem
              obtain ⟨hGv, hGp⟩ := expand_fold_refs cb pend.index p1i pend.cost
                (cb.successors p0n) (hG0 hro) hG1 (σ.visited, rest) hGv0 hGp0
              exact pv_transfer cb σ _ hwf hstab hlen' hGv hGp
          · cases hfb : pend.fallback with
            | some fb =>
              simp only [step, hpop, hget, if_neg hstale, hp1, if_neg hvalid, hfb,
                StepResult.next.injEq] at hstep
              subst hstep
              have hGpar : Gref cb σ fb.parent :=
                Or.inl ⟨Or.inl (Or.inr ⟨pend, hpmem, fb, hfb, rfl⟩),
                  (hwf.1 pend hpmem).2 fb hfb, hpv.2 pend hpmem fb hfb⟩
              obtain ⟨hGv, hGp⟩ := add_pending_refs cb σ.visited rest fb.parent fb.cost
                fb.node none hGv0 hGp0 hGpar (by simp)
              exact pv_transfer cb σ _ hwf hstab hlen' hGv hGp
            | none =>
              simp only [step, hpop, hget, if_neg hstale, hp1, if_neg hvalid, hfb,
                StepResult.next.injEq] at hstep
              subst hstep
              exact ⟨hpv.1, fun p hp fb hfb => hpv.2 p (hrmem p hp) fb hfb⟩
        | none =>
          by_cases hsucc : cb.success p0n = true
          · simp [step, hpop, hget, hstale, hp1, commit, hsucc] at hstep
          · simp only [step, hpop, hget, if_neg hstale, hp1, commit, hsucc,
              Bool.false_eq_true, if_false, StepResult.next.injEq] at hstep
            subst hstep
            have hro : RefOk cb σ.visited pend.index := by
              intro pe hpe
              rw [Option.mem_def, hget, Option.some.injEq] at hpe
              subst hpe
              intro ppe hppe
              rw [Option.mem_def, hp1] at hppe
              exact absurd hppe (by simp)
            have hG1 : Gref cb σ p1i := by
              rcases hwf.2 (p0n, p1i, p0c) hemem with hlt | hmax
              · exact absurd hp1 (by simp [List.getElem?_eq_some, hlt]
                    )
              · exact Or.inr hmax
            obtain ⟨hGv, hGp⟩ := expand_fold_refs cb pend.index p1i pend.cost
              (cb.successors p0n) (hG0 hro) hG1 (σ.visited, rest) hGv0 hGp0
            exact pv_transfer cb σ _ hwf hstab hlen' hGv hGp

end Pathfind
end Shorai

namespace Shorai
namespace Pathfind

/-- Every adjacent pair of a parent-trail walk is validated, provided the
starting entry's stored edge is validated and every entry of the table
has a validated reference as its parent index.  The walk lists the goal
first, so the pair relation is validity of the move from the later
element (the parent) into the earlier one. -/
theorem path_walk_pairs [DecidableEq N] (cb : Callbacks N C) (v : Visited N C)
    (hvv : ∀ e ∈ v, RefOk cb v e.2.1) :
    ∀ (f i : Nat), (∀ e ∈ v[i]?, edge_ok cb v e) →
      List.Chain' (fun x y => cb.is_valid_move y x = true) (path_walk v f i) := by
  intro f
  induction f with
  | zero => intro i _; simp [path_walk]
  | succ f ih =>
    intro i hhead
    cases hget : v[i]? with
    | none => simp [path_walk_succ, hget]
    | some e =>
      simp only [path_walk_succ, hget]
      have hro : edge_ok cb v e := hhead e (by rw [Option.mem_def, hget])
      have hrefok : RefOk cb v e.2.1 := hvv e (mem_of_getElem_some hget)
      refine List.chain'_cons'.mpr ⟨?_, ih e.2.1 hrefok⟩
      intro b hb
      cases f with
      | zero => simp [path_walk] at hb
      | succ f' =>
        cases hp : v[e.2.1]? with
        | none => rw [path_walk_none v _ _ hp] at hb; simp at hb
        | some pe =>
          rw [path_walk_succ, hp] at hb
          simp only [List.head?_cons, Option.mem_def, Option.some.injEq] at hb
          subst hb
          exact hro pe (by rw [Option.mem_def, hp])

/-- Step-level acceptance: if one loop iteration accepts a goal in a
state whose references are all validated, every adjacent pair of the
returned path passes `is_valid_move`. -/
theorem step_found_pairs_valid [DecidableEq N] [LinearOrder C] [Add C]
    (cb : Callbacks N C) (σ : SearchState N C) (path : List N) (c : C)
    (hpv : ParentsValidated cb σ)
    (h : step cb σ = StepResult.found path c) :
    List.Chain' (fun a b => cb.is_valid_move a b = true) path := by
  cases hpop : popMax σ.pending with
  | none => simp [step, hpop] at h
  | some pr =>
    obtain ⟨pend, rest⟩ := pr
    cases hget : σ.visited[pend.index]? with
    | none => simp [step, hpop, hget] at h
    | some e =>
      obtain ⟨p0n, p1i, p0c⟩ := e
      by_cases hstale : p0c < pend.cost
      · simp [step, hpop, hget, hstale] at h
      · have hgen : edge_ok cb σ.visited (p0n, p1i, p0c) →
            reconstruct_path σ.visited pend.index = path →
            List.Chain' (fun a b => cb.is_valid_move a b = true) path := by
          intro hro hpath
          subst hpath
          simp only [reconstruct_path]
          rw [List.chain'_reverse]
          refine path_walk_pairs cb σ.visited hpv.1 σ.visited.length pend.index ?_
          intro e' he'
          rw [Option.mem_def, hget, Option.some.injEq] at he'
          subst he'
          exact hro
        cases hp1 : σ.visited[p1i]? with
        | some p1e =>
          by_cases hvalid : cb.is_valid_move p1e.1 p0n = true
          · by_cases hsucc : cb.success p0n = true
            · have hh : reconstruct_path σ.visited pend.index = path := by
                simp [step, hpop, hget, hstale, hp1, hvalid, commit, hsucc] at h
                exact h.1
              refine hgen ?_ hh
              intro ppe hppe
              rw [Option.mem_def, hp1, Option.some.injEq] at hppe
              subst hppe
              exact hvalid
            · simp [step, hpop, hget, hstale, hp1, hvalid, commit, hsucc] at h
          · cases hfb : pend.fallback <;>
              simp [step, hpop, hget, hstale, hp1, hvalid, hfb] at h
        | none =>
          by_cases hsucc : cb.success p0n = true
          · have hh : reconstruct_path σ.visited pend.index = path := by
              simp [step, hpop, hget, hstale, hp1, commit, hsucc] at h
              exact h.1
            refine hgen ?_ hh
            intro ppe hppe
            rw [Option.mem_def, hp1] at hppe
            exact absurd hppe (by simp)
          · simp [step, hpop, hget, hstale, hp1, commit, hsucc] at h

end Pathfind
end Shorai

namespace Shorai
namespace Pathfind

/-- **C2 (amended).** Validation completeness holds on every run that
never re-opens a referenced node: if the search starts from a
well-formed state with all references validated (as `find`'s seeded
start is), and no iteration of the run overwrites a visited entry that
is referenced as a parent (by the table or by a pending fallback) or is
the entry being popped, while the table stays within `usize::MAX`
entries, then every adjacent pair `(a, b)` of a returned path satisfies
`is_valid_move a b`.  Without the no-re-opening hypothesis only the
final pair is guaranteed: a node's parent link can be overwritten by a
cheaper, never-validated pending route after the node was already
expanded, and `returned_path_invalid_edge_cex` exhibits a returned path
carrying an unvalidated, invalid interior pair. -/
theorem returned_path_pairs_valid [DecidableEq N] [LinearOrder C] [Add C]
    (cb : Callbacks N C) (fuel : Nat) (σ : SearchState N C) (path : List N) (c : C)
    (hwf : WF σ) (hpv : ParentsValidated cb σ)
    (hstab : ∀ k σ₁ σ₂, iterate cb k σ = some σ₁ → step cb σ₁ = StepResult.next σ₂ →
      (∀ j, Protected σ₁ j → σ₂.visited[j]? = σ₁.visited[j]?) ∧
      σ₂.visited.length ≤ USIZE_MAX)
    (h : run_find cb fuel σ = RunResult.found path c) :
    List.Chain' (fun a b => cb.is_valid_move a b = true) path := by
  induction fuel generalizing σ with
  | zero => simp [run_find] at h
  | succ f ih =>
    cases hstep : step cb σ with
    | found p' c' =>
        have hpc : p' = path ∧ c' = c := by
          simp [run_find, hstep] at h
          exact h
        exact step_found_pairs_valid cb σ path c hpv (by rw [hstep, hpc.1, hpc.2])
    | noPath => simp [run_find, hstep] at h
    | next σ' =>
        have hst0 := hstab 0 σ σ' rfl hstep
        have hwf' := step_preserves_wf cb σ σ' hwf hstep
        have hpv' := step_preserves_pv cb σ σ' hwf hpv hstep hst0.1 hst0.2
        refine ih σ' hwf' hpv' ?_ (by simpa [run_find, hstep] using h)
        intro k σ₁ σ₂ hit hs
        exact hstab (k + 1) σ₁ σ₂ (by simpa [iterate, hstep] using hit) hs

/-- Witness for C2 (amended): a two-entry state about to accept the goal
`1` with validated parent `0`; the run is one accepting iteration long,
so the stability hypothesis is vacuous, and the theorem yields validity
of every pair of the returned path `[0, 1]`. -/
theorem returned_path_pairs_valid_witness :
    List.Chain' (fun a b => cbC3.is_valid_move a b = true) [0, 1] := by
  refine returned_path_pairs_valid cbC3 1
    ⟨[⟨1, 1, 1, none⟩], [(0, USIZE_MAX, 0), (1, 0, 1)]⟩ [0, 1] 1
    (by decide) (by decide) ?_ (by decide)
  intro k σ₁ σ₂ hit hs
  have hf : step cbC3 (⟨[⟨1, 1, 1, none⟩], [(0, USIZE_MAX, 0), (1, 0, 1)]⟩ : SearchState ℕ ℕ)
      = StepResult.found [0, 1] 1 := by decide
  cases k with
  | zero =>
    simp only [iterate, Option.some.injEq] at hit
    subst hit
    rw [hf] at hs
    exact StepResult.noConfusion hs
  | succ k =>
    simp only [iterate, hf] at hit
    exact Option.noConfusion hit

end Pathfind
end Shorai
